import Mathlib

/-!
Verification of the rustowl fact-to-annotation analysis engine.

This file shallowly embeds the core data model and algorithms of the
repository (src/models.rs, src/utils.rs, src/lsp/decoration.rs,
src/mir_transform.rs, src/mir_cache.rs, src/compiler/analyze.rs) as
executable Lean definitions, and proves or refutes the specified
properties about them.

Machine integers are embedded as `Nat`/`Int` with explicit `% 2^32`
wrapping where the Rust code can overflow (release semantics; debug
builds would panic at the same inputs).  Rust `HashMap` values are
embedded as association lists, and file-system effects are abstracted
into explicit parameters.
-/

/-- 2^32, the modulus of `u32` arithmetic. -/
def u32Mod : Nat := 4294967296

/-- `self.0 as i32` for a `u32` value: two's-complement reinterpretation. -/
def toI32 (l : Nat) : Int :=
  if l < 2147483648 then (l : Int) else (l : Int) - 4294967296

/-- `-rhs` on `i32` with wrapping semantics (`-i32::MIN` wraps to `i32::MIN`). -/
def negWrapI32 (d : Int) : Int :=
  if d = -2147483648 then -2147483648 else -d

/-- `rhs as u32` for an `i32` value: two's-complement reinterpretation. -/
def asU32 (d : Int) : Nat :=
  (d % 4294967296).toNat

/-- `impl Add<i32> for Loc` (src/models.rs): saturate to 0 when the checked
condition detects underflow, otherwise wrapping `u32` addition. -/
def locAdd (l : Nat) (d : Int) : Nat :=
  if d < 0 ∧ toI32 l < negWrapI32 d then 0
  else (l + asU32 d) % u32Mod

/-- `impl Sub<i32> for Loc` (src/models.rs): saturate to 0 when the checked
condition detects underflow, otherwise wrapping `u32` subtraction. -/
def locSub (l : Nat) (d : Int) : Nat :=
  if 0 < d ∧ toI32 l < d then 0
  else (l + u32Mod - asU32 d % u32Mod) % u32Mod

/-- `Range` (src/models.rs): a half-open interval over `Loc`.  The Rust field
names are `from`/`until`; `from` is a Lean keyword, hence `fromL`/`untilL`. -/
structure Range where
  fromL : Nat
  untilL : Nat
deriving DecidableEq, Repr

/-- `Range::new` (src/models.rs): fails on zero- or negative-size ranges. -/
def Range.new (f u : Nat) : Option Range :=
  if u ≤ f then none else some ⟨f, u⟩

/-- `Range::size` (src/models.rs). -/
def Range.size (r : Range) : Nat := r.untilL - r.fromL

/-- Membership of a point in a half-open range. -/
def Range.memP (r : Range) (p : Nat) : Prop := r.fromL ≤ p ∧ p < r.untilL

instance (r : Range) (p : Nat) : Decidable (r.memP p) := by
  unfold Range.memP; infer_instance

/-- `is_super_range` (src/utils.rs): `r1` strictly contains `r2`. -/
def is_super_range (r1 r2 : Range) : Bool :=
  (r1.fromL.blt r2.fromL && r2.untilL.ble r1.untilL) ||
  (r1.fromL.ble r2.fromL && r2.untilL.blt r1.untilL)

/-- Body of `common_range` (src/utils.rs) after its one-level argument swap
has put the range with the smaller `from` first. -/
def commonRangeAux (r1 r2 : Range) : Option Range :=
  if r1.untilL < r2.fromL then none
  else Range.new r2.fromL (min r1.untilL r2.untilL)

/-- `common_range` (src/utils.rs): the recursive call swaps the arguments
once when `r2.from < r1.from`; we expand that single level of recursion. -/
def common_range (r1 r2 : Range) : Option Range :=
  if r2.fromL < r1.fromL then commonRangeAux r2 r1 else commonRangeAux r1 r2

/-- `merge_ranges` (src/utils.rs): union of two overlapping or adjacent ranges. -/
def merge_ranges (r1 r2 : Range) : Option Range :=
  if (common_range r1 r2).isSome ∨ r1.untilL = r2.fromL ∨ r2.untilL = r1.fromL then
    Range.new (min r1.fromL r2.fromL) (max r1.untilL r2.untilL)
  else none

theorem Range.new_none {a b : Nat} (h : b ≤ a) : Range.new a b = none := by
  unfold Range.new; rw [if_pos h]

theorem Range.new_congr {a b c d : Nat}
    (h : (b ≤ a ∧ d ≤ c) ∨ (a = c ∧ b = d)) : Range.new a b = Range.new c d := by
  rcases h with ⟨h1, h2⟩ | ⟨rfl, rfl⟩
  · rw [Range.new_none h1, Range.new_none h2]
  · rfl

theorem common_range_eq (r1 r2 : Range) :
    common_range r1 r2 = Range.new (max r1.fromL r2.fromL) (min r1.untilL r2.untilL) := by
  rcases r1 with ⟨f1, u1⟩
  rcases r2 with ⟨f2, u2⟩
  unfold common_range commonRangeAux
  simp only
  split_ifs with h1 h2 h3
  · exact (Range.new_none (by omega)).symm
  · exact Range.new_congr (by omega)
  · exact (Range.new_none (by omega)).symm
  · exact Range.new_congr (by omega)

/-- The arithmetic condition under which `merge_ranges` succeeds. -/
def MergeCond (r1 r2 : Range) : Prop :=
  (max r1.fromL r2.fromL < min r1.untilL r2.untilL ∨
      r1.untilL = r2.fromL ∨ r2.untilL = r1.fromL) ∧
  min r1.fromL r2.fromL < max r1.untilL r2.untilL

instance (r1 r2 : Range) : Decidable (MergeCond r1 r2) := by
  unfold MergeCond; infer_instance

theorem common_range_isSome_iff (r1 r2 : Range) :
    (common_range r1 r2).isSome = true ↔
      max r1.fromL r2.fromL < min r1.untilL r2.untilL := by
  rw [common_range_eq]
  unfold Range.new
  split_ifs with h
  · simp only [Option.isSome_none, Bool.false_eq_true, false_iff]; omega
  · simp only [Option.isSome_some, true_iff]; omega

/-- Arithmetic characterisation of `merge_ranges`. -/
theorem merge_ranges_eq (r1 r2 : Range) :
    merge_ranges r1 r2 =
      if MergeCond r1 r2 then
        some ⟨min r1.fromL r2.fromL, max r1.untilL r2.untilL⟩
      else none := by
  have hs := common_range_isSome_iff r1 r2
  unfold merge_ranges
  by_cases hmc : MergeCond r1 r2
  · rw [if_pos hmc]
    obtain ⟨hor, hne⟩ := hmc
    rw [if_pos (by rw [hs]; exact hor)]
    unfold Range.new
    rw [if_neg (by omega)]
  · rw [if_neg hmc]
    by_cases hor : (common_range r1 r2).isSome = true ∨
        r1.untilL = r2.fromL ∨ r2.untilL = r1.fromL
    · rw [if_pos hor]
      rw [hs] at hor
      unfold MergeCond at hmc
      exact Range.new_none (by omega)
    · rw [if_neg hor]

theorem merge_cond_of_some {r1 r2 m : Range} (h : merge_ranges r1 r2 = some m) :
    MergeCond r1 r2 ∧ m = ⟨min r1.fromL r2.fromL, max r1.untilL r2.untilL⟩ := by
  rw [merge_ranges_eq] at h
  split_ifs at h with hc
  have h' : (⟨min r1.fromL r2.fromL, max r1.untilL r2.untilL⟩ : Range) = m := by
    injection h
  exact ⟨hc, h'.symm⟩

theorem merge_none_iff {r1 r2 : Range} :
    merge_ranges r1 r2 = none ↔ ¬ MergeCond r1 r2 := by
  rw [merge_ranges_eq]
  split_ifs with hc
  · simp [hc]
  · simp [hc]

theorem merge_ranges_comm (r1 r2 : Range) : merge_ranges r1 r2 = merge_ranges r2 r1 := by
  rw [merge_ranges_eq, merge_ranges_eq]
  have hc : MergeCond r1 r2 ↔ MergeCond r2 r1 := by unfold MergeCond; omega
  rw [if_congr hc (by rw [Nat.min_comm, Nat.max_comm]) rfl]

/-- When `merge_ranges` succeeds, the merged range covers exactly the union
of the points of the two inputs. -/
theorem merge_ranges_union {r1 r2 m : Range} (h : merge_ranges r1 r2 = some m) :
    ∀ p, m.memP p ↔ (r1.memP p ∨ r2.memP p) := by
  intro p
  obtain ⟨hc, hm⟩ := merge_cond_of_some h
  subst hm
  unfold MergeCond at hc
  unfold Range.memP
  simp only
  omega

/-- If `x` merges with neither `a` nor `b`, it does not merge with their
successful merge either. -/
theorem merge_ranges_decompose {a b m x : Range} (hm : merge_ranges a b = some m)
    (hxa : merge_ranges x a = none) (hxb : merge_ranges x b = none) :
    merge_ranges x m = none := by
  obtain ⟨hc, hmeq⟩ := merge_cond_of_some hm
  subst hmeq
  rw [merge_none_iff] at *
  unfold MergeCond at *
  simp only at *
  omega

/-- Inner scan of the `eliminated_ranges` loop (src/utils.rs): find the first
index `j ≥` the scan position with `j ≠ i` whose range merges with `cur`. -/
def findMergeAux (xs : List Range) (cur : Range) (i j : Nat) : Option (Nat × Range) :=
  if h : j < xs.length then
    if i = j then findMergeAux xs cur i (j + 1)
    else
      match merge_ranges cur xs[j] with
      | some m => some (j, m)
      | none => findMergeAux xs cur i (j + 1)
  else none
termination_by xs.length - j

theorem findMergeAux_some {xs : List Range} {cur : Range} {i : Nat} :
    ∀ {j k : Nat} {m : Range}, findMergeAux xs cur i j = some (k, m) →
      ∃ hk : k < xs.length, i ≠ k ∧ merge_ranges cur xs[k] = some m := by
  have H : ∀ n j, xs.length - j = n → ∀ k m, findMergeAux xs cur i j = some (k, m) →
      ∃ hk : k < xs.length, i ≠ k ∧ merge_ranges cur xs[k] = some m := by
    intro n
    induction n with
    | zero =>
      intro j hn k m h
      unfold findMergeAux at h
      rw [dif_neg (by omega)] at h
      exact absurd h (by simp)
    | succ n ih =>
      intro j hn k m h
      have hj : j < xs.length := by omega
      unfold findMergeAux at h
      rw [dif_pos hj] at h
      by_cases hij : i = j
      · rw [if_pos hij] at h
        exact ih (j + 1) (by omega) k m h
      · rw [if_neg hij] at h
        rcases hmm : merge_ranges cur xs[j] with _ | m'
        · rw [hmm] at h
          exact ih (j + 1) (by omega) k m h
        · rw [hmm] at h
          simp only [Option.some.injEq, Prod.mk.injEq] at h
          obtain ⟨rfl, rfl⟩ := h
          exact ⟨hj, hij, hmm⟩
  exact fun {j k m} h => H (xs.length - j) j rfl k m h

theorem findMergeAux_none {xs : List Range} {cur : Range} {i : Nat} :
    ∀ {j : Nat}, findMergeAux xs cur i j = none →
      ∀ l, j ≤ l → ∀ hl : l < xs.length, l ≠ i → merge_ranges cur xs[l] = none := by
  have H : ∀ n j, xs.length - j = n → findMergeAux xs cur i j = none →
      ∀ l, j ≤ l → ∀ hl : l < xs.length, l ≠ i → merge_ranges cur xs[l] = none := by
    intro n
    induction n with
    | zero =>
      intro j hn _ l hjl hl _
      omega
    | succ n ih =>
      intro j hn h l hjl hl hli
      have hj : j < xs.length := by omega
      unfold findMergeAux at h
      rw [dif_pos hj] at h
      by_cases hij : i = j
      · rw [if_pos hij] at h
        exact ih (j + 1) (by omega) h l (by omega) hl hli
      · rw [if_neg hij] at h
        rcases hmm : merge_ranges cur xs[j] with _ | m'
        · rw [hmm] at h
          rcases Nat.eq_or_lt_of_le hjl with rfl | hlt
          · exact hmm
          · exact ih (j + 1) (by omega) h l (by omega) hl hli
        · rw [hmm] at h
          exact absurd h (by simp)
  exact fun {j} h => H (xs.length - j) j rfl h

theorem findMergeAux_eq_none {xs : List Range} {cur : Range} {i : Nat} :
    ∀ {j : Nat}, (∀ l, j ≤ l → ∀ hl : l < xs.length, l ≠ i → merge_ranges cur xs[l] = none) →
      findMergeAux xs cur i j = none := by
  have H : ∀ n j, xs.length - j = n →
      (∀ l, j ≤ l → ∀ hl : l < xs.length, l ≠ i → merge_ranges cur xs[l] = none) →
      findMergeAux xs cur i j = none := by
    intro n
    induction n with
    | zero =>
      intro j hn _
      unfold findMergeAux
      rw [dif_neg (by omega)]
    | succ n ih =>
      intro j hn h
      have hj : j < xs.length := by omega
      unfold findMergeAux
      rw [dif_pos hj]
      by_cases hij : i = j
      · rw [if_pos hij]
        exact ih (j + 1) (by omega) (fun l hjl hl hli => h l (by omega) hl hli)
      · rw [if_neg hij]
        have hmm : merge_ranges cur xs[j] = none :=
          h j (by omega) hj (fun hc => hij hc.symm)
        rw [hmm]
        exact ih (j + 1) (by omega) (fun l hjl hl hli => h l (by omega) hl hli)
  exact fun {j} h => H (xs.length - j) j rfl h

/-- `eliminated_ranges` outer loop (src/utils.rs): at index `i`, scan the whole
list for a mergeable partner `j`; on success overwrite index `i` with the
merged range, remove index `j`, and retry the same `i`; otherwise advance. -/
def eliminatedFrom (xs : List Range) (i : Nat) : List Range :=
  if h : i < xs.length then
    match hm : findMergeAux xs xs[i] i 0 with
    | some (j, m) => eliminatedFrom ((xs.set i m).eraseIdx j) i
    | none => eliminatedFrom xs (i + 1)
  else xs
termination_by (xs.length, xs.length - i)
decreasing_by
  · obtain ⟨hk, _, _⟩ := findMergeAux_some hm
    apply Prod.Lex.left
    rw [List.length_eraseIdx]
    simp only [List.length_set]
    rw [if_pos hk]
    omega
  · apply Prod.Lex.right
    omega

theorem elimFrom_eq_merge {xs : List Range} {i j : Nat} {m : Range}
    (h : i < xs.length) (hm : findMergeAux xs xs[i] i 0 = some (j, m)) :
    eliminatedFrom xs i = eliminatedFrom ((xs.set i m).eraseIdx j) i := by
  conv_lhs => rw [eliminatedFrom]
  rw [dif_pos h]
  split
  · next j' m' hm' =>
    rw [hm] at hm'
    simp only [Option.some.injEq, Prod.mk.injEq] at hm'
    rw [hm'.1, hm'.2]
  · next hm' =>
    rw [hm] at hm'
    exact absurd hm' (by simp)

theorem elimFrom_eq_adv {xs : List Range} {i : Nat}
    (h : i < xs.length) (hm : findMergeAux xs xs[i] i 0 = none) :
    eliminatedFrom xs i = eliminatedFrom xs (i + 1) := by
  conv_lhs => rw [eliminatedFrom]
  rw [dif_pos h]
  split
  · next j' m' hm' =>
    rw [hm] at hm'
    exact absurd hm' (by simp)
  · rfl

theorem elimFrom_eq_base {xs : List Range} {i : Nat} (h : ¬ i < xs.length) :
    eliminatedFrom xs i = xs := by
  rw [eliminatedFrom, dif_neg h]

/-- Structural-fuel twin of `findMergeAux`; `xs.length - j` steps always
suffice (`findMergeGo_eq`), so the two agree on every input. -/
def findMergeGo : Nat → List Range → Range → Nat → Nat → Option (Nat × Range)
  | 0, _, _, _, _ => none
  | n + 1, xs, cur, i, j =>
    if h : j < xs.length then
      if i = j then findMergeGo n xs cur i (j + 1)
      else
        match merge_ranges cur xs[j] with
        | some m => some (j, m)
        | none => findMergeGo n xs cur i (j + 1)
    else none

theorem findMergeGo_eq :
    ∀ n (xs : List Range) (cur : Range) (i j : Nat), xs.length ≤ j + n →
      findMergeGo n xs cur i j = findMergeAux xs cur i j := by
  intro n
  induction n with
  | zero =>
    intro xs cur i j hn
    unfold findMergeGo findMergeAux
    rw [dif_neg (by omega)]
  | succ n ih =>
    intro xs cur i j hn
    unfold findMergeGo findMergeAux
    by_cases hj : j < xs.length
    · rw [dif_pos hj, dif_pos hj]
      by_cases hij : i = j
      · rw [if_pos hij, if_pos hij]
        exact ih xs cur i (j + 1) (by omega)
      · rw [if_neg hij, if_neg hij]
        rcases merge_ranges cur xs[j] with _ | m
        · exact ih xs cur i (j + 1) (by omega)
        · rfl
    · rw [dif_neg hj, dif_neg hj]

/-- Structural-fuel twin of `eliminatedFrom`; `2 * xs.length + 1 - i` steps
always suffice (`elimGo_eq`), so the Rust loop is faithfully recovered. -/
def elimGo : Nat → List Range → Nat → List Range
  | 0, xs, _ => xs
  | fuel + 1, xs, i =>
    if h : i < xs.length then
      match findMergeGo xs.length xs xs[i] i 0 with
      | some (j, m) => elimGo fuel ((xs.set i m).eraseIdx j) i
      | none => elimGo fuel xs (i + 1)
    else xs

theorem elimGo_eq :
    ∀ fuel (xs : List Range) (i : Nat), 2 * xs.length < fuel + i →
      elimGo fuel xs i = eliminatedFrom xs i := by
  intro fuel
  induction fuel with
  | zero =>
    intro xs i hf
    unfold elimGo
    rw [eliminatedFrom, dif_neg (by omega)]
  | succ fuel ih =>
    intro xs i hf
    unfold elimGo
    by_cases hi : i < xs.length
    · rw [dif_pos hi]
      rw [findMergeGo_eq xs.length xs xs[i] i 0 (by omega)]
      rcases hm : findMergeAux xs xs[i] i 0 with _ | jm
      · rw [elimFrom_eq_adv hi hm]
        exact ih xs (i + 1) (by omega)
      · rcases jm with ⟨j, m⟩
        obtain ⟨hj, _, _⟩ := findMergeAux_some hm
        rw [elimFrom_eq_merge hi hm]
        refine ih ((xs.set i m).eraseIdx j) i ?_
        rw [List.length_eraseIdx]
        simp only [List.length_set]
        rw [if_pos hj]
        omega
    · rw [dif_neg hi, elimFrom_eq_base hi]

/-- `eliminated_ranges` (src/utils.rs).  Defined through the structural-fuel
twin so that it is kernel-computable; `eliminated_ranges_eq_from` identifies
it with the direct embedding `eliminatedFrom xs 0` of the Rust loop. -/
def eliminated_ranges (xs : List Range) : List Range :=
  elimGo (2 * xs.length + 1) xs 0

theorem eliminated_ranges_eq_from (xs : List Range) :
    eliminated_ranges xs = eliminatedFrom xs 0 :=
  elimGo_eq (2 * xs.length + 1) xs 0 (by omega)

/-- A point is covered by some range of the list. -/
def Covers (xs : List Range) (p : Nat) : Prop := ∃ r ∈ xs, r.memP p

/-- No two distinct positions of the list hold mergeable ranges. -/
def PairwiseNonMergeable (xs : List Range) : Prop :=
  ∀ a b, ∀ ha : a < xs.length, ∀ hb : b < xs.length, a ≠ b →
    merge_ranges xs[a] xs[b] = none

/-- Loop invariant of `eliminated_ranges`: every range strictly before the
cursor merges with no other element of the list. -/
def ElimInv (xs : List Range) (i : Nat) : Prop :=
  ∀ k, ∀ hk : k < xs.length, k < i → ∀ l, ∀ hl : l < xs.length, l ≠ k →
    merge_ranges xs[k] xs[l] = none

/-- A merge found by the scan must sit strictly after the cursor, because
everything before the cursor is already non-mergeable with the rest. -/
theorem elim_merge_after_cursor {xs : List Range} {i j : Nat} {m : Range}
    (hi : i < xs.length) (hInv : ElimInv xs i)
    (hj : j < xs.length) (hij : i ≠ j) (hmm : merge_ranges xs[i] xs[j] = some m) :
    i < j := by
  rcases Nat.lt_or_ge i j with h | h
  · exact h
  · exfalso
    have hji : j < i := by omega
    have := hInv j hj hji i hi hij
    rw [merge_ranges_comm] at this
    rw [this] at hmm
    exact absurd hmm (by simp)

theorem elimInv_step {xs : List Range} {i j : Nat} {m : Range}
    (hi : i < xs.length) (hj : j < xs.length) (hij : i < j)
    (hmm : merge_ranges xs[i] xs[j] = some m) (hInv : ElimInv xs i) :
    ElimInv ((xs.set i m).eraseIdx j) i := by
  intro k hk hki l hl hlk
  have hlen : ((xs.set i m).eraseIdx j).length = xs.length - 1 := by
    rw [List.length_eraseIdx]
    simp only [List.length_set]
    rw [if_pos hj]
  have hget : ∀ t, ∀ ht : t < ((xs.set i m).eraseIdx j).length,
      ((xs.set i m).eraseIdx j)[t] =
        if t < j then (if i = t then m else xs.get ⟨t, by omega⟩)
        else xs.get ⟨t + 1, by omega⟩ := by
    intro t ht
    rcases Nat.lt_or_ge t j with htj | htj
    · rw [if_pos htj, List.getElem_eraseIdx, dif_pos htj, List.getElem_set]
      rfl
    · rw [if_neg (by omega), List.getElem_eraseIdx, dif_neg (by omega),
        List.getElem_set, if_neg (by omega)]
      rfl
  have hkj : k < j := by omega
  have hkval : ((xs.set i m).eraseIdx j)[k] = xs.get ⟨k, by omega⟩ := by
    rw [hget k hk, if_pos hkj, if_neg (by omega)]
  rw [hkval]
  rw [hget l hl]
  split
  · next hlj =>
    split
    · next hli =>
      -- the element at the cursor is now the merged range
      exact merge_ranges_decompose hmm
        (hInv k (by omega) hki i hi (by omega))
        (hInv k (by omega) hki j hj (by omega))
    · next hli =>
      exact hInv k (by omega) hki l (by omega) hlk
  · next hlj =>
    exact hInv k (by omega) hki (l + 1) (by omega) (by omega)

theorem elimFrom_pnm : ∀ xs i, ElimInv xs i → PairwiseNonMergeable (eliminatedFrom xs i) := by
  intro xs i
  induction xs, i using eliminatedFrom.induct with
  | case1 xs i h j m hm ih =>
    intro hInv
    obtain ⟨hj, hij, hmm⟩ := findMergeAux_some hm
    have hij' : i < j := elim_merge_after_cursor h hInv hj hij hmm
    rw [elimFrom_eq_merge h hm]
    exact ih (elimInv_step h hj hij' hmm hInv)
  | case2 xs i h hm ih =>
    intro hInv
    rw [elimFrom_eq_adv h hm]
    refine ih ?_
    intro k hk hki l hl hlk
    rcases Nat.lt_or_ge k i with hk' | hk'
    · exact hInv k hk hk' l hl hlk
    · have hki' : k = i := by omega
      subst hki'
      exact findMergeAux_none hm l (by omega) hl (by omega)
  | case3 xs i h =>
    intro hInv
    rw [elimFrom_eq_base h]
    intro a b ha hb hab
    exact hInv a ha (by omega) b hb (by omega)

theorem covers_step {xs : List Range} {i j : Nat} {m : Range}
    (hi : i < xs.length) (hj : j < xs.length) (hij : i ≠ j)
    (hm : merge_ranges (xs.get ⟨i, hi⟩) (xs.get ⟨j, hj⟩) = some m) (p : Nat) :
    Covers ((xs.set i m).eraseIdx j) p ↔ Covers xs p := by
  have hun := merge_ranges_union hm
  constructor
  · rintro ⟨r, hr, hp⟩
    rw [List.mem_eraseIdx_iff_getElem] at hr
    obtain ⟨t, ht, htj, hteq⟩ := hr
    rw [List.getElem_set] at hteq
    split at hteq
    · next hti =>
      subst hteq
      rcases (hun p).mp hp with hin | hin
      · exact ⟨xs[i], List.getElem_mem hi, hin⟩
      · exact ⟨xs[j], List.getElem_mem hj, hin⟩
    · next hti =>
      subst hteq
      exact ⟨_, List.getElem_mem (by simpa using ht), hp⟩
  · rintro ⟨r, hr, hp⟩
    rcases List.mem_iff_getElem.mp hr with ⟨k, hk, rfl⟩
    by_cases hki : k = i
    · subst hki
      refine ⟨m, ?_, (hun p).mpr (Or.inl hp)⟩
      rw [List.mem_eraseIdx_iff_getElem]
      refine ⟨k, by simpa using hk, hij, ?_⟩
      rw [List.getElem_set, if_pos rfl]
    · by_cases hkj : k = j
      · subst hkj
        refine ⟨m, ?_, (hun p).mpr (Or.inr hp)⟩
        rw [List.mem_eraseIdx_iff_getElem]
        refine ⟨i, by simpa using hi, hij, ?_⟩
        rw [List.getElem_set, if_pos rfl]
      · refine ⟨xs[k], ?_, hp⟩
        rw [List.mem_eraseIdx_iff_getElem]
        refine ⟨k, by simpa using hk, hkj, ?_⟩
        rw [List.getElem_set, if_neg (fun hc => hki hc.symm)]

theorem elimFrom_covers : ∀ xs i p, Covers (eliminatedFrom xs i) p ↔ Covers xs p := by
  intro xs i
  induction xs, i using eliminatedFrom.induct with
  | case1 xs i h j m hm ih =>
    intro p
    obtain ⟨hj, hij, hmm⟩ := findMergeAux_some hm
    rw [elimFrom_eq_merge h hm]
    rw [ih p]
    exact covers_step h hj hij hmm p
  | case2 xs i h hm ih =>
    intro p
    rw [elimFrom_eq_adv h hm]
    exact ih p
  | case3 xs i h =>
    intro p
    rw [elimFrom_eq_base h]

theorem elimFrom_fixpoint : ∀ xs i, PairwiseNonMergeable xs → eliminatedFrom xs i = xs := by
  intro xs i
  induction xs, i using eliminatedFrom.induct with
  | case1 xs i h j m hm ih =>
    intro hpnm
    obtain ⟨hj, hij, hmm⟩ := findMergeAux_some hm
    rw [hpnm i j h hj hij] at hmm
    exact absurd hmm (by simp)
  | case2 xs i h hm ih =>
    intro hpnm
    rw [elimFrom_eq_adv h hm]
    exact ih hpnm
  | case3 xs i h =>
    intro _
    exact elimFrom_eq_base h

/-- C4.  `eliminated_ranges` is idempotent, its result is pairwise
non-mergeable, and it covers exactly the same points as its input. -/
theorem eliminated_ranges_c4 (xs : List Range) :
    eliminated_ranges (eliminated_ranges xs) = eliminated_ranges xs ∧
    PairwiseNonMergeable (eliminated_ranges xs) ∧
    (∀ p, Covers (eliminated_ranges xs) p ↔ Covers xs p) := by
  have hInv0 : ElimInv xs 0 := by
    intro k hk hki
    omega
  have hpnm : PairwiseNonMergeable (eliminated_ranges xs) := by
    rw [eliminated_ranges_eq_from]
    exact elimFrom_pnm xs 0 hInv0
  refine ⟨?_, hpnm, ?_⟩
  · rw [eliminated_ranges_eq_from (eliminated_ranges xs)]
    exact elimFrom_fixpoint _ 0 hpnm
  · intro p
    rw [eliminated_ranges_eq_from]
    exact elimFrom_covers xs 0 p

theorem Range.new_eq_none_iff {f u : Nat} : Range.new f u = none ↔ u ≤ f := by
  unfold Range.new
  split_ifs with h
  · simp [h]
  · simp [h]

theorem Range.new_eq_some_iff {f u : Nat} {r : Range} :
    Range.new f u = some r ↔ f < u ∧ r = ⟨f, u⟩ := by
  unfold Range.new
  split_ifs with h
  · simp only [false_iff]
    omega
  · constructor
    · intro hr
      injection hr with hr
      exact ⟨by omega, hr.symm⟩
    · intro ⟨_, hr⟩
      rw [hr]

/-- If two ranges have no `common_range`, no point lies in both. -/
theorem common_none_disjoint {r e : Range} (h : common_range r e = none) (p : Nat) :
    ¬ (r.memP p ∧ e.memP p) := by
  rw [common_range_eq, Range.new_eq_none_iff] at h
  unfold Range.memP
  omega

theorem common_some_bounds {r e c : Range} (h : common_range r e = some c) :
    c.fromL = max r.fromL e.fromL ∧ c.untilL = min r.untilL e.untilL ∧
      c.fromL < c.untilL := by
  rw [common_range_eq, Range.new_eq_some_iff] at h
  obtain ⟨hlt, rfl⟩ := h
  exact ⟨rfl, rfl, hlt⟩

/-- `Loc - 1` for a `u32` value: saturating decrement, with the `as i32`
reinterpretation sending values `≥ 2^31` to 0. -/
theorem locSub_one_of_lt {x : Nat} (hx : x < u32Mod) :
    locSub x 1 = if x < 2147483648 then x - 1 else 0 := by
  unfold locSub toI32 asU32 u32Mod at *
  have h1 : ((1 : Int) % 4294967296).toNat = 1 := by decide
  rcases Nat.lt_or_ge x 2147483648 with h | h
  · rw [if_pos h, if_pos h]
    rcases Nat.eq_zero_or_pos x with rfl | hp
    · rw [if_pos (by norm_num)]
    · have hn : ¬ ((0 : Int) < 1 ∧ (x : Int) < 1) := by
        rintro ⟨_, h2⟩
        omega
      rw [if_neg hn, h1]
      omega
  · have hn : ¬ x < 2147483648 := by omega
    rw [if_neg hn, if_neg hn]
    rw [if_pos ⟨by norm_num, by omega⟩]

/-- `Loc + 1` for a value whose successor does not wrap. -/
theorem locAdd_one_of_lt {x : Nat} (hx : x + 1 < u32Mod) : locAdd x 1 = x + 1 := by
  unfold locAdd asU32 u32Mod at *
  have hn : ¬ ((1 : Int) < 0 ∧ toI32 x < negWrapI32 1) := by
    rintro ⟨h1, _⟩
    omega
  rw [if_neg hn]
  have h1 : ((1 : Int) % 4294967296).toNat = 1 := by decide
  rw [h1]
  omega

/-- Inner loop of `exclude_ranges` (src/utils.rs): first exclude intersecting
the current range, as the intersection. -/
def findCommon (cur : Range) : List Range → Option Range
  | [] => none
  | e :: rest =>
    match common_range cur e with
    | some c => some c
    | none => findCommon cur rest

theorem findCommon_some {cur c : Range} :
    ∀ {l : List Range}, findCommon cur l = some c →
      ∃ e ∈ l, common_range cur e = some c := by
  intro l
  induction l with
  | nil => intro h; exact absurd h (by simp [findCommon])
  | cons e rest ih =>
    intro h
    unfold findCommon at h
    rcases hce : common_range cur e with _ | c'
    · rw [hce] at h
      obtain ⟨e', he', hc'⟩ := ih h
      exact ⟨e', List.mem_cons_of_mem _ he', hc'⟩
    · rw [hce] at h
      injection h with h
      subst h
      exact ⟨e, List.mem_cons_self _ _, hce⟩

theorem findCommon_none {cur : Range} :
    ∀ {l : List Range}, findCommon cur l = none →
      ∀ e ∈ l, common_range cur e = none := by
  intro l
  induction l with
  | nil => intro _ e he; exact absurd he (by simp)
  | cons e rest ih =>
    intro h e' he'
    unfold findCommon at h
    rcases hce : common_range cur e with _ | c'
    · rw [hce] at h
      rcases List.mem_cons.mp he' with rfl | hmem
      · exact hce
      · exact ih h e' hmem
    · rw [hce] at h
      exact absurd h (by simp)

/-- The two residual pieces produced when `exclude_ranges` trims the current
range by an intersecting exclude (src/utils.rs, the two `Range::new` pushes):
left remainder `[from, common.from - 1)` and right remainder
`[common.until + 1, until)`, omitted when empty. -/
def trimPieces (cur c : Range) : List Range :=
  (Range.new cur.fromL (locSub c.fromL 1)).toList ++
  (Range.new (locAdd c.untilL 1) cur.untilL).toList

/-- `exclude_ranges` outer loop (src/utils.rs) with explicit fuel.  The Rust
loop does not terminate (in release builds) on the degenerate input where a
range and an exclude both end at `u32::MAX`, because `common.until() + 1`
wraps to 0; fuel makes the embedding total. -/
def excludeRangesAux (excl : List Range) : Nat → List Range → Nat → Option (List Range)
  | 0, _, _ => none
  | fuel + 1, fr, i =>
    if h : i < fr.length then
      match findCommon fr[i] excl with
      | some c => excludeRangesAux excl fuel ((fr ++ trimPieces fr[i] c).eraseIdx i) i
      | none => excludeRangesAux excl fuel fr (i + 1)
    else some (eliminated_ranges fr)

/-- `exclude_ranges` (src/utils.rs); the first argument is fuel. -/
def exclude_ranges (fuel : Nat) (fr excl : List Range) : Option (List Range) :=
  excludeRangesAux excl fuel fr 0

instance (xs : List Range) (p : Nat) : Decidable (Covers xs p) := by
  unfold Covers; infer_instance

/-- Every residual piece of a trim lies inside the trimmed range and keeps
the no-wrap bound on its upper end. -/
theorem trimPieces_subset {cur e c : Range} (hb : cur.untilL < u32Mod - 1)
    (hc : common_range cur e = some c) :
    ∀ r ∈ trimPieces cur c,
      (∀ p, r.memP p → cur.memP p) ∧ r.untilL < u32Mod - 1 := by
  obtain ⟨hcf, hcu, hwf⟩ := common_some_bounds hc
  intro r hr
  unfold trimPieces at hr
  have hcfb : c.fromL < u32Mod := by
    unfold u32Mod at *
    omega
  have hcub : c.untilL + 1 < u32Mod := by
    unfold u32Mod at *
    omega
  rcases List.mem_append.mp hr with hl | hl
  · rw [Option.mem_toList, Option.mem_def, Range.new_eq_some_iff] at hl
    obtain ⟨hlt, rfl⟩ := hl
    rw [locSub_one_of_lt hcfb] at hlt ⊢
    split_ifs at hlt ⊢ with h31
    · constructor
      · intro p hp
        unfold Range.memP at *
        simp only at *
        omega
      · simp only
        unfold u32Mod at *
        omega
    · omega
  · rw [Option.mem_toList, Option.mem_def, Range.new_eq_some_iff] at hl
    obtain ⟨hlt, rfl⟩ := hl
    rw [locAdd_one_of_lt hcub] at hlt ⊢
    constructor
    · intro p hp
      unfold Range.memP at *
      simp only at *
      omega
    · simp only
      exact hb

/-- Loop invariant of `exclude_ranges`: every range strictly before the
cursor has no intersection with any exclude. -/
def ExcInv (excl fr : List Range) (i : Nat) : Prop :=
  ∀ k, ∀ hk : k < fr.length, k < i → ∀ e ∈ excl, common_range fr[k] e = none

/-- All upper ends below the wrap threshold. -/
def RangesBounded (l : List Range) : Prop := ∀ r ∈ l, r.untilL < u32Mod - 1

theorem mem_of_mem_eraseIdx' {α : Type} {l : List α} {i : Nat} {a : α}
    (h : a ∈ l.eraseIdx i) : a ∈ l := by
  rw [List.mem_eraseIdx_iff_getElem] at h
  obtain ⟨t, ht, _, rfl⟩ := h
  exact List.getElem_mem ht

theorem excludeRangesAux_sound (excl : List Range) :
    ∀ fuel fr i out, RangesBounded fr → ExcInv excl fr i →
      excludeRangesAux excl fuel fr i = some out →
      ∀ p, Covers out p → Covers fr p ∧ ∀ e ∈ excl, ¬ e.memP p := by
  intro fuel
  induction fuel with
  | zero =>
    intro fr i out _ _ h
    exact absurd h (by simp [excludeRangesAux])
  | succ fuel ih =>
    intro fr i out hB hInv h
    unfold excludeRangesAux at h
    by_cases hi : i < fr.length
    · rw [dif_pos hi] at h
      rcases hfc : findCommon fr[i] excl with _ | c
      · rw [hfc] at h
        have hInv' : ExcInv excl fr (i + 1) := by
          intro k hk hki e he
          rcases Nat.lt_or_ge k i with hlt | hge
          · exact hInv k hk hlt e he
          · have hkeq : k = i := by omega
            subst hkeq
            exact findCommon_none hfc e he
        exact ih fr (i + 1) out hB hInv' h
      · rw [hfc] at h
        obtain ⟨e, he, hce⟩ := findCommon_some hfc
        have hcurb : fr[i].untilL < u32Mod - 1 := hB _ (List.getElem_mem hi)
        have hmem : ∀ r ∈ (fr ++ trimPieces fr[i] c).eraseIdx i,
            r ∈ fr ∨ r ∈ trimPieces fr[i] c := by
          intro r hr
          exact List.mem_append.mp (mem_of_mem_eraseIdx' hr)
        have hB' : RangesBounded ((fr ++ trimPieces fr[i] c).eraseIdx i) := by
          intro r hr
          rcases hmem r hr with hrf | hrp
          · exact hB r hrf
          · exact (trimPieces_subset hcurb hce r hrp).2
        have hInv' : ExcInv excl ((fr ++ trimPieces fr[i] c).eraseIdx i) i := by
          intro k hk hki e' he'
          have hklen : k < fr.length := by omega
          have hkeq : ((fr ++ trimPieces fr[i] c).eraseIdx i)[k] = fr[k] := by
            rw [List.getElem_eraseIdx, dif_pos hki, List.getElem_append,
              dif_pos hklen]
          rw [hkeq]
          exact hInv k hklen hki e' he'
        intro p hp
        obtain ⟨hcov, hdis⟩ := ih _ i out hB' hInv' h p hp
        refine ⟨?_, hdis⟩
        obtain ⟨r, hr, hrp⟩ := hcov
        rcases hmem r hr with hrf | hrpc
        · exact ⟨r, hrf, hrp⟩
        · exact ⟨fr[i], List.getElem_mem hi, (trimPieces_subset hcurb hce r hrpc).1 p hrp⟩
    · rw [dif_neg hi] at h
      injection h with h
      subst h
      intro p hp
      rw [eliminated_ranges_eq_from] at hp
      have hcov : Covers fr p := (elimFrom_covers fr 0 p).mp hp
      refine ⟨hcov, ?_⟩
      intro e he hep
      obtain ⟨r, hr, hrp⟩ := hcov
      rcases List.mem_iff_getElem.mp hr with ⟨k, hk, rfl⟩
      exact common_none_disjoint (hInv k hk (by omega) e he) p ⟨hrp, hep⟩

/-- Once no range intersects any exclude and the list is pairwise
non-mergeable, the loop just walks to the end and returns the list. -/
theorem excludeRangesAux_clean (excl : List Range) :
    ∀ n P i fuel, (∀ x ∈ P, findCommon x excl = none) → PairwiseNonMergeable P →
      P.length ≤ i + n → n < fuel →
      excludeRangesAux excl fuel P i = some P := by
  intro n
  induction n with
  | zero =>
    intro P i fuel h1 h2 hlen hf
    rcases fuel with _ | f
    · omega
    · unfold excludeRangesAux
      rw [dif_neg (by omega)]
      exact congrArg some ((eliminated_ranges_eq_from P).trans (elimFrom_fixpoint P 0 h2))
  | succ n ih =>
    intro P i fuel h1 h2 hlen hf
    rcases fuel with _ | f
    · omega
    · unfold excludeRangesAux
      by_cases hi : i < P.length
      · rw [dif_pos hi]
        rw [h1 P[i] (List.getElem_mem hi)]
        exact ih P (i + 1) f h1 h2 (by omega) (by omega)
      · rw [dif_neg hi]
        exact congrArg some ((eliminated_ranges_eq_from P).trans (elimFrom_fixpoint P 0 h2))

theorem trim_left_facts {a b c l : Range} (hb : a.untilL < u32Mod - 1)
    (hc : common_range a b = some c)
    (hl : Range.new a.fromL (locSub c.fromL 1) = some l) :
    l = ⟨a.fromL, c.fromL - 1⟩ ∧ c.fromL = b.fromL ∧ 1 ≤ c.fromL ∧
      a.fromL + 1 < c.fromL := by
  obtain ⟨hcf, hcu, hwf⟩ := common_some_bounds hc
  have hcb : c.fromL < u32Mod := by omega
  rw [Range.new_eq_some_iff, locSub_one_of_lt hcb] at hl
  obtain ⟨hlt, rfl⟩ := hl
  split_ifs at hlt with h31
  · rw [if_pos h31]
    refine ⟨rfl, by omega, by omega, by omega⟩
  · omega

theorem trim_right_facts {a b c r : Range} (hb : a.untilL < u32Mod - 1)
    (hc : common_range a b = some c)
    (hr : Range.new (locAdd c.untilL 1) a.untilL = some r) :
    r = ⟨c.untilL + 1, a.untilL⟩ ∧ c.untilL = b.untilL ∧ c.untilL + 1 < a.untilL := by
  obtain ⟨hcf, hcu, hwf⟩ := common_some_bounds hc
  have hcb : c.untilL + 1 < u32Mod := by omega
  rw [Range.new_eq_some_iff, locAdd_one_of_lt hcb] at hr
  obtain ⟨hlt, rfl⟩ := hr
  refine ⟨rfl, by omega, by omega⟩

theorem trim_pieces_no_common {a b c : Range} (hb : a.untilL < u32Mod - 1)
    (hc : common_range a b = some c) :
    ∀ x ∈ trimPieces a c, findCommon x [b] = none := by
  intro x hx
  obtain ⟨hcf, hcu, hwf⟩ := common_some_bounds hc
  have hnone : common_range x b = none := by
    unfold trimPieces at hx
    rcases List.mem_append.mp hx with hl | hl <;>
      rw [Option.mem_toList, Option.mem_def] at hl
    · obtain ⟨rfl, hbf, h1, h2⟩ := trim_left_facts hb hc hl
      rw [common_range_eq, Range.new_eq_none_iff]
      simp only
      omega
    · obtain ⟨rfl, hbu, h2⟩ := trim_right_facts hb hc hl
      rw [common_range_eq, Range.new_eq_none_iff]
      simp only
      omega
  unfold findCommon
  rw [hnone]
  rfl

theorem trim_pieces_pnm {a b c : Range} (hb : a.untilL < u32Mod - 1)
    (hc : common_range a b = some c) :
    PairwiseNonMergeable (trimPieces a c) := by
  obtain ⟨hcf, hcu, hwf⟩ := common_some_bounds hc
  unfold trimPieces
  rcases hlp : Range.new a.fromL (locSub c.fromL 1) with _ | l <;>
    rcases hrp : Range.new (locAdd c.untilL 1) a.untilL with _ | r <;>
      intro u v hu hv huv
  · simp at hu
  · simp at hu hv
    omega
  · simp at hu hv
    omega
  · obtain ⟨hleq, hbf, h1, h2⟩ := trim_left_facts hb hc hlp
    obtain ⟨hreq, hbu, h3⟩ := trim_right_facts hb hc hrp
    have hmlr : merge_ranges l r = none := by
      rw [merge_none_iff]
      rw [hleq, hreq]
      unfold MergeCond
      simp only
      omega
    have hll : (Option.toList (some l) ++ Option.toList (some r)).length = 2 := rfl
    rw [hll] at hu hv
    have huv' : (u = 0 ∧ v = 1) ∨ (u = 1 ∧ v = 0) := by omega
    rcases huv' with ⟨rfl, rfl⟩ | ⟨rfl, rfl⟩
    · show merge_ranges l r = none
      exact hmlr
    · show merge_ranges r l = none
      rw [merge_ranges_comm]
      exact hmlr

theorem trimPieces_length (a c : Range) : (trimPieces a c).length ≤ 2 := by
  unfold trimPieces
  rcases Range.new a.fromL (locSub c.fromL 1) with _ | l <;>
    rcases Range.new (locAdd c.untilL 1) a.untilL with _ | r <;> simp

/-- One trim step of the `exclude_ranges` loop. -/
theorem excludeRangesAux_step_trim {excl fr : List Range} {i fuel : Nat} {c : Range}
    (hi : i < fr.length) (hfc : findCommon fr[i] excl = some c) :
    excludeRangesAux excl (fuel + 1) fr i =
      excludeRangesAux excl fuel ((fr ++ trimPieces fr[i] c).eraseIdx i) i := by
  conv_lhs => rw [excludeRangesAux]
  rw [dif_pos hi, hfc]

/-- When the single range and single exclude intersect, the whole run
returns exactly the two (or fewer) widened remainders. -/
theorem exclude_ranges_single_trim {a b c : Range} (hb : a.untilL < u32Mod - 1)
    (hc : common_range a b = some c) (fuel : Nat) :
    exclude_ranges (fuel + 4) [a] [b] = some (trimPieces a c) := by
  unfold exclude_ranges
  have h0 : (0 : Nat) < ([a] : List Range).length := by simp
  have hfc : findCommon (([a] : List Range)[0]) [b] = some c := by
    unfold findCommon
    simp only [List.getElem_singleton]
    rw [hc]
  rw [excludeRangesAux_step_trim h0 hfc]
  have hL : (([a] ++ trimPieces (([a] : List Range)[0]) c).eraseIdx 0) = trimPieces a c := by
    simp
  rw [hL]
  exact excludeRangesAux_clean [b] 2 (trimPieces a c) 0 (fuel + 3)
    (trim_pieces_no_common hb hc) (trim_pieces_pnm hb hc)
    (by have := trimPieces_length a c; omega) (by omega)

/-- C5 counterexample: `exclude_ranges([[0,10)], [[4,6)])` computes
`[[0,3), [7,10)]`, so point 3 — which lies in the `from` range and in no
exclude — is not covered by the output.  The claim that the output covers
exactly the points of `from` lying in no exclude is therefore false: the
code trims one extra point on each side of the intersection. -/
theorem exclude_ranges_c5_counterexample :
    exclude_ranges 10 [(⟨0, 10⟩ : Range)] [⟨4, 6⟩] = some [⟨0, 3⟩, ⟨7, 10⟩] ∧
    Range.memP ⟨0, 10⟩ 3 ∧ ¬ Range.memP ⟨4, 6⟩ 3 ∧
    ¬ Covers [(⟨0, 3⟩ : Range), ⟨7, 10⟩] 3 := by
  decide

/-- C5 (amended).  `exclude_ranges(from, excludes)` covers only points that
lie in some range of `from` and in no range of `excludes` (not exactly that
set), and each intersecting exclude removes its intersection widened by one
extra point at each boundary: the residuals are `[from, common.from - 1)`
and `[common.until + 1, until)`, with empty residuals omitted.  Upper
bounds below `u32::MAX` keep `common.until() + 1` from wrapping. -/
theorem exclude_ranges_c5_amended :
    (∀ fuel fr excl out, (∀ r ∈ fr, r.untilL < u32Mod - 1) →
        exclude_ranges fuel fr excl = some out →
        ∀ p, Covers out p → Covers fr p ∧ ¬ Covers excl p) ∧
    (∀ a b c fuel, a.untilL < u32Mod - 1 → common_range a b = some c →
        exclude_ranges (fuel + 4) [a] [b] = some (trimPieces a c)) := by
  constructor
  · intro fuel fr excl out hB hrun p hp
    have hInv0 : ExcInv excl fr 0 := by
      intro k hk hki
      omega
    obtain ⟨h1, h2⟩ := excludeRangesAux_sound excl fuel fr 0 out hB hInv0 hrun p hp
    refine ⟨h1, ?_⟩
    rintro ⟨e, he, hep⟩
    exact h2 e he hep
  · intro a b c fuel hb hc
    exact exclude_ranges_single_trim hb hc fuel

/-- Witness for C5 (amended) at a concrete input. -/
theorem exclude_ranges_c5_amended_witness :
    (Covers [(⟨0, 10⟩ : Range)] 8 ∧ ¬ Covers [(⟨4, 6⟩ : Range)] 8) ∧
    exclude_ranges 14 [(⟨0, 10⟩ : Range)] [⟨4, 6⟩] =
      some (trimPieces ⟨0, 10⟩ ⟨4, 6⟩) :=
  ⟨exclude_ranges_c5_amended.1 10 [⟨0, 10⟩] [⟨4, 6⟩] [⟨0, 3⟩, ⟨7, 10⟩]
      (by decide) (by decide) 8 (by decide),
    exclude_ranges_c5_amended.2 ⟨0, 10⟩ ⟨4, 6⟩ ⟨4, 6⟩ 10 (by decide) (by decide)⟩

/-- C9 counterexample: for `l = Loc(5)` and `d = i32::MIN`, the exact result
`5 - 2^31` is negative, yet `l + d` evaluates (with release wrapping
semantics; a debug build would panic on `-d`) to `Loc(2147483653)`, not
`Loc(0)`.  The saturation claim is therefore false at `d = i32::MIN`. -/
theorem loc_arith_c9_counterexample :
    ((5 : Int) + (-2147483648) < 0) ∧
    locAdd 5 (-2147483648) = 2147483653 ∧
    ¬ locAdd 5 (-2147483648) = 0 := by
  decide

/-- C9 (amended).  For every `u32` value `l` and every `i32` delta `d`,
`l - d` saturates to 0 whenever the exact result is negative, and `l + d`
does so for every `d` except `i32::MIN` (where negating the delta wraps). -/
theorem loc_arith_c9_amended :
    ∀ l : Nat, l < u32Mod →
      ∀ d : Int, -2147483648 ≤ d → d < 2147483648 →
        ((-2147483648 < d → (l : Int) + d < 0 → locAdd l d = 0) ∧
          ((l : Int) - d < 0 → locSub l d = 0)) := by
  intro l hl d hd1 hd2
  unfold u32Mod at hl
  constructor
  · intro hdmin hneg
    unfold locAdd
    rw [if_pos ?hc]
    case hc =>
      refine ⟨by omega, ?_⟩
      unfold toI32 negWrapI32
      rw [if_pos (by omega), if_neg (by omega)]
      omega
  · intro hneg
    unfold locSub
    rw [if_pos ?hc]
    case hc =>
      refine ⟨by omega, ?_⟩
      unfold toI32
      rw [if_pos (by omega)]
      omega

/-- Witness for C9 (amended) at concrete inputs. -/
theorem loc_arith_c9_amended_witness :
    locAdd 7 (-9) = 0 ∧ locSub 3 5 = 0 :=
  ⟨(loc_arith_c9_amended 7 (by decide) (-9) (by decide) (by decide)).1
      (by decide) (by decide),
    (loc_arith_c9_amended 3 (by decide) 5 (by decide) (by decide)).2 (by decide)⟩

/-- `FnLocal` (src/models.rs): a local slot index plus owning function id. -/
structure FnLocal where
  id : Nat
  fn_id : Nat
deriving DecidableEq, Repr

/-- `MirRval` (src/models.rs). -/
inductive MirRval
  | Move (target_local : FnLocal) (range : Range)
  | Borrow (target_local : FnLocal) (range : Range) (mutable : Bool)
      (outlive : Option Range)
deriving DecidableEq, Repr

/-- `MirStatement` (src/models.rs). -/
inductive MirStatement
  | StorageLive (target_local : FnLocal) (range : Range)
  | StorageDead (target_local : FnLocal) (range : Range)
  | Assign (target_local : FnLocal) (range : Range) (rval : Option MirRval)
  | Other (range : Range)
deriving DecidableEq, Repr

/-- `MirStatement::range` (src/models.rs). -/
def MirStatement.range : MirStatement → Range
  | .StorageLive _ r => r
  | .StorageDead _ r => r
  | .Assign _ r _ => r
  | .Other r => r

/-- `MirTerminator` (src/models.rs). -/
inductive MirTerminator
  | Drop (lcl : FnLocal) (range : Range)
  | Call (destination_local : FnLocal) (fn_span : Range)
  | Other (range : Range)
deriving DecidableEq, Repr

/-- `MirTerminator::range` (src/models.rs): a call's range is its `fn_span`. -/
def MirTerminator.range : MirTerminator → Range
  | .Call _ fn_span => fn_span
  | .Drop _ r => r
  | .Other r => r

/-- `MirBasicBlock` (src/models.rs). -/
structure MirBasicBlock where
  statements : List MirStatement
  terminator : Option MirTerminator
deriving DecidableEq, Repr

/-- `MirDecl` (src/models.rs). -/
inductive MirDecl
  | User (lcl : FnLocal) (name : String) (span : Range) (ty : String)
      (lives : List Range) (shared_borrow : List Range)
      (mutable_borrow : List Range) (drop : Bool) (drop_range : List Range)
      (must_live_at : List Range)
  | Other (lcl : FnLocal) (ty : String) (lives : List Range)
      (shared_borrow : List Range) (mutable_borrow : List Range) (drop : Bool)
      (drop_range : List Range) (must_live_at : List Range)
deriving DecidableEq, Repr

/-- The `local` of a declaration. -/
def MirDecl.localOf : MirDecl → FnLocal
  | .User l _ _ _ _ _ _ _ _ _ => l
  | .Other l _ _ _ _ _ _ _ => l

/-- The `ty` of a declaration. -/
def MirDecl.tyOf : MirDecl → String
  | .User _ _ _ t _ _ _ _ _ _ => t
  | .Other _ t _ _ _ _ _ _ => t

/-- `Function` (src/models.rs). -/
structure Function where
  fn_id : Nat
  basic_blocks : List MirBasicBlock
  decls : List MirDecl
deriving DecidableEq, Repr

/-- `Deco` (src/lsp/decoration.rs): an enum with seven variants, each
carrying the same four fields; embedded as a record plus a kind tag, with
record equality agreeing with the derived Rust `PartialEq`.  The Rust field
`local` is a Lean keyword, hence `local_`. -/
inductive DecoKind
  | Lifetime
  | ImmBorrow
  | MutBorrow
  | Move
  | Call
  | SharedMut
  | Outlive
deriving DecidableEq, Repr

structure Deco where
  kind : DecoKind
  local_ : FnLocal
  range : Range
  hover_text : String
  overlapped : Bool
deriving DecidableEq, Repr

/-- `CalcDecos::get_deco_order` (src/lsp/decoration.rs). -/
def get_deco_order (d : Deco) : Nat :=
  match d.kind with
  | .Lifetime => 0
  | .ImmBorrow => 1
  | .MutBorrow => 2
  | .Move => 3
  | .Call => 4
  | .SharedMut => 5
  | .Outlive => 6

/-- The removal loop in `CalcDecos::visit_term` (src/lsp/decoration.rs):
drop every existing Call decoration whose range strictly contains the new
call's span, keeping everything else in order. -/
def removeContainedCalls (span : Range) : List Deco → List Deco
  | [] => []
  | d :: rest =>
    if d.kind = DecoKind.Call ∧ is_super_range d.range span then
      removeContainedCalls span rest
    else d :: removeContainedCalls span rest

/-- `CalcDecos::visit_term` (src/lsp/decoration.rs): on a call terminator
whose destination is selected, return unchanged (drop the new decoration)
when the new span strictly contains an existing Call decoration's range;
otherwise remove every existing Call decoration strictly containing the new
span and append the new Call decoration. -/
def CalcDecos.visit_term (locals : List FnLocal) (decorations : List Deco)
    (term : MirTerminator) : List Deco :=
  match term with
  | MirTerminator.Call destination_local fn_span =>
    if destination_local ∈ locals then
      if ∃ d ∈ decorations, d.kind = DecoKind.Call ∧ is_super_range fn_span d.range then
        decorations
      else
        removeContainedCalls fn_span decorations ++
          [⟨DecoKind.Call, destination_local, fn_span, "function call", false⟩]
    else decorations
  | _ => decorations

theorem removeContainedCalls_eq_filter (span : Range) :
    ∀ l : List Deco, removeContainedCalls span l =
      l.filter (fun d => decide (¬ (d.kind = DecoKind.Call ∧ is_super_range d.range span))) := by
  intro l
  induction l with
  | nil => rfl
  | cons d rest ih =>
    unfold removeContainedCalls
    by_cases h : d.kind = DecoKind.Call ∧ is_super_range d.range span
    · rw [if_pos h, ih, List.filter_cons]
      rw [if_neg (by simp only [decide_eq_true_eq]; exact not_not_intro h)]
    · rw [if_neg h, ih, List.filter_cons]
      rw [if_pos (by simp only [decide_eq_true_eq]; exact h)]

/-- C1 counterexample: with one existing Call decoration on `[2,4)` and a
new call on `[0,10)` (destination selected), no existing decoration's range
strictly contains the new span, yet the new decoration is dropped: the code
keeps the narrowest call, not the widest. -/
theorem call_dedup_c1_counterexample :
    CalcDecos.visit_term [⟨1, 0⟩]
        [⟨DecoKind.Call, ⟨1, 0⟩, ⟨2, 4⟩, "function call", false⟩]
        (MirTerminator.Call ⟨1, 0⟩ ⟨0, 10⟩) =
      [⟨DecoKind.Call, ⟨1, 0⟩, ⟨2, 4⟩, "function call", false⟩] ∧
    (∀ d ∈ [(⟨DecoKind.Call, ⟨1, 0⟩, ⟨2, 4⟩, "function call", false⟩ : Deco)],
        ¬ (d.kind = DecoKind.Call ∧ is_super_range d.range ⟨0, 10⟩)) ∧
    (⟨DecoKind.Call, ⟨1, 0⟩, ⟨0, 10⟩, "function call", false⟩ : Deco) ∉
      CalcDecos.visit_term [⟨1, 0⟩]
        [⟨DecoKind.Call, ⟨1, 0⟩, ⟨2, 4⟩, "function call", false⟩]
        (MirTerminator.Call ⟨1, 0⟩ ⟨0, 10⟩) := by
  decide

/-- C1 (amended).  When a call terminator whose destination is selected is
processed, the new Call decoration is dropped exactly when the new call's
range strictly contains some existing Call decoration's range; otherwise
every existing Call decoration whose range strictly contains the new range
is removed and the new decoration is appended (the narrowest call's
decoration survives). -/
theorem call_dedup_c1_amended :
    ∀ (locals : List FnLocal) (decos : List Deco) (dest : FnLocal) (span : Range),
      dest ∈ locals →
      ((∃ d ∈ decos, d.kind = DecoKind.Call ∧ is_super_range span d.range) →
        CalcDecos.visit_term locals decos (MirTerminator.Call dest span) = decos) ∧
      ((∀ d ∈ decos, ¬ (d.kind = DecoKind.Call ∧ is_super_range span d.range)) →
        CalcDecos.visit_term locals decos (MirTerminator.Call dest span) =
          decos.filter
            (fun d => decide (¬ (d.kind = DecoKind.Call ∧ is_super_range d.range span))) ++
          [⟨DecoKind.Call, dest, span, "function call", false⟩]) := by
  intro locals decos dest span hdest
  have heq : CalcDecos.visit_term locals decos (MirTerminator.Call dest span) =
      (if dest ∈ locals then
        if ∃ d ∈ decos, d.kind = DecoKind.Call ∧ is_super_range span d.range then
          decos
        else
          removeContainedCalls span decos ++
            [⟨DecoKind.Call, dest, span, "function call", false⟩]
      else decos) := rfl
  constructor
  · intro hex
    rw [heq, if_pos hdest, if_pos hex]
  · intro hall
    rw [heq, if_pos hdest, if_neg (by simpa using hall), removeContainedCalls_eq_filter]

/-- Witness for C1 (amended) at a concrete input: a narrow new call
replaces a wider existing call decoration. -/
theorem call_dedup_c1_amended_witness :
    CalcDecos.visit_term [⟨1, 0⟩]
        [⟨DecoKind.Call, ⟨1, 0⟩, ⟨0, 10⟩, "function call", false⟩]
        (MirTerminator.Call ⟨1, 0⟩ ⟨2, 4⟩) =
      [⟨DecoKind.Call, ⟨1, 0⟩, ⟨2, 4⟩, "function call", false⟩] :=
  ((call_dedup_c1_amended [⟨1, 0⟩]
      [⟨DecoKind.Call, ⟨1, 0⟩, ⟨0, 10⟩, "function call", false⟩]
      ⟨1, 0⟩ ⟨2, 4⟩ (by decide)).2 (by decide)).trans (by decide)

/-- `File` (src/models.rs). -/
structure File where
  items : List Function
deriving DecidableEq, Repr

/-- `Vec::dedup_by(|a, b| a.fn_id == b.fn_id)` (src/models.rs,
`Crate::merge`): removes all but the first of consecutive items with equal
`fn_id`, comparing each candidate against the last kept item. -/
def dedupGoFnId (last : Function) : List Function → List Function
  | [] => []
  | b :: rest =>
    if b.fn_id = last.fn_id then dedupGoFnId last rest
    else b :: dedupGoFnId b rest

def dedupByFnId : List Function → List Function
  | [] => []
  | a :: rest => a :: dedupGoFnId a rest

/-- The file-level body of `Crate::merge` (src/models.rs):
`extend_from_slice` then `dedup_by` on `fn_id`. -/
def File.mergeItems (a b : File) : File :=
  ⟨dedupByFnId (a.items ++ b.items)⟩

/-- `Crate` (src/models.rs); the `HashMap<String, File>` is modelled as an
association list with distinct keys. -/
structure Crate where
  files : List (String × File)
deriving DecidableEq, Repr

def updateFile : List (String × File) → String → File → List (String × File)
  | [], _, _ => []
  | (k, f) :: rest, name, mir =>
    if k = name then (k, File.mergeItems f mir) :: rest
    else (k, f) :: updateFile rest name mir

/-- One iteration of the `Crate::merge` loop (src/models.rs). -/
def Crate.mergeOne (self : Crate) (name : String) (mir : File) : Crate :=
  if (self.files.lookup name).isSome then ⟨updateFile self.files name mir⟩
  else ⟨self.files ++ [(name, mir)]⟩

/-- `Crate::merge` (src/models.rs). -/
def Crate.merge (self other : Crate) : Crate :=
  other.files.foldl (fun acc nm => Crate.mergeOne acc nm.1 nm.2) self

/-- `Workspace` (src/models.rs); `HashMap<String, Crate>` as an association
list. -/
structure Workspace where
  crates : List (String × Crate)
deriving DecidableEq, Repr

def updateCrate : List (String × Crate) → String → Crate → List (String × Crate)
  | [], _, _ => []
  | (k, c) :: rest, name, krate =>
    if k = name then (k, Crate.merge c krate) :: rest
    else (k, c) :: updateCrate rest name krate

/-- `Workspace::merge` (src/models.rs). -/
def Workspace.merge (self other : Workspace) : Workspace :=
  other.crates.foldl
    (fun acc nm =>
      if (acc.crates.lookup nm.1).isSome then ⟨updateCrate acc.crates nm.1 nm.2⟩
      else ⟨acc.crates ++ [nm]⟩)
    self

/-- C2: `Vec::dedup_by` removes only consecutive duplicates, so merging a
file whose incoming function duplicates a non-adjacent stored one keeps
both entries; and even for adjacent duplicates the previously stored entry
is the one kept, not the incoming one.  Evaluated at the failing input:
a file with functions 1 and 2 merged with a file carrying function 1 again
ends with fn_ids [1, 2, 1]. -/
theorem crate_merge_c2_bug :
    Crate.merge ⟨[("a.rs", ⟨[⟨1, [], []⟩, ⟨2, [], []⟩]⟩)]⟩
        ⟨[("a.rs", ⟨[⟨1, [], []⟩]⟩)]⟩ =
      ⟨[("a.rs", ⟨[⟨1, [], []⟩, ⟨2, [], []⟩, ⟨1, [], []⟩]⟩)]⟩ ∧
    List.countP (fun f => decide (f.fn_id = 1))
        [(⟨1, [], []⟩ : Function), ⟨2, [], []⟩, ⟨1, [], []⟩] = 2 ∧
    Workspace.merge ⟨[("c", ⟨[("a.rs", ⟨[⟨1, [], []⟩, ⟨2, [], []⟩]⟩)]⟩)]⟩
        ⟨[("c", ⟨[("a.rs", ⟨[⟨1, [], []⟩]⟩)]⟩)]⟩ =
      ⟨[("c", ⟨[("a.rs", ⟨[⟨1, [], []⟩, ⟨2, [], []⟩, ⟨1, [], []⟩]⟩)]⟩)]⟩ ∧
    dedupByFnId [⟨1, [], []⟩, ⟨1, [⟨[], none⟩], []⟩] = [⟨1, [], []⟩] := by
  decide

/-- `ASYNC_RESUME_TY` (src/lsp/decoration.rs). -/
def ASYNC_RESUME_TY : List String :=
  ["std::future::ResumeTy", "impl std::future::Future<Output = ()>"]

/-- `SelectReason` (src/lsp/decoration.rs). -/
inductive SelectReason
  | Var
  | Move
  | Borrow
  | Call
deriving DecidableEq, Repr

/-- `SelectLocal` (src/lsp/decoration.rs). -/
structure SelectLocal where
  pos : Nat
  candidate_local_decls : List FnLocal
  selected : Option (SelectReason × FnLocal × Range)
deriving DecidableEq, Repr

/-- `SelectLocal::new` (src/lsp/decoration.rs). -/
def SelectLocal.new (pos : Nat) : SelectLocal := ⟨pos, [], none⟩

/-- Replace the current selection, keeping position and candidates. -/
def SelectLocal.withSel (s : SelectLocal) (v : SelectReason × FnLocal × Range) :
    SelectLocal :=
  ⟨s.pos, s.candidate_local_decls, some v⟩

/-- `SelectLocal::select` (src/lsp/decoration.rs).  Candidates only; the
containment test is inclusive on both ends; the precedence match follows
the Rust arms in order: a new declaration-site match replaces anything when
narrower, an existing declaration-site match is never replaced, move/borrow
replace non-declaration selections when narrower, among calls the wider
wins, and all remaining combinations keep the current selection. -/
def SelectLocal.select (s : SelectLocal) (reason : SelectReason) (lcl : FnLocal)
    (range : Range) : SelectLocal :=
  if lcl ∈ s.candidate_local_decls then
    if range.fromL ≤ s.pos ∧ s.pos ≤ range.untilL then
      match s.selected with
      | some (old_reason, _, old_range) =>
        match old_reason, reason with
        | _, SelectReason.Var =>
          if range.size < old_range.size then s.withSel (reason, lcl, range) else s
        | SelectReason.Var, _ => s
        | _, SelectReason.Move =>
          if range.size < old_range.size then s.withSel (reason, lcl, range) else s
        | _, SelectReason.Borrow =>
          if range.size < old_range.size then s.withSel (reason, lcl, range) else s
        | SelectReason.Call, SelectReason.Call =>
          if old_range.size < range.size then s.withSel (reason, lcl, range) else s
        | _, _ => s
      | none => s.withSel (reason, lcl, range)
    else s
  else s

/-- `SelectLocal::visit_decl` (src/lsp/decoration.rs): skip async-resume
types, register the local as a candidate, and select declaration-site
matches for user declarations. -/
def SelectLocal.visit_decl (s : SelectLocal) (decl : MirDecl) : SelectLocal :=
  if decl.tyOf ∈ ASYNC_RESUME_TY then s
  else
    let s' : SelectLocal :=
      ⟨s.pos, s.candidate_local_decls ++ [decl.localOf], s.selected⟩
    match decl with
    | MirDecl.User lcl _ span _ _ _ _ _ _ _ => s'.select SelectReason.Var lcl span
    | MirDecl.Other _ _ _ _ _ _ _ _ => s'

/-- `SelectLocal::visit_stmt` (src/lsp/decoration.rs). -/
def SelectLocal.visit_stmt (s : SelectLocal) (stmt : MirStatement) : SelectLocal :=
  match stmt with
  | MirStatement.Assign _ _ (some (MirRval.Move target_local range)) =>
    s.select SelectReason.Move target_local range
  | MirStatement.Assign _ _ (some (MirRval.Borrow target_local range _ _)) =>
    s.select SelectReason.Borrow target_local range
  | _ => s

/-- `SelectLocal::visit_term` (src/lsp/decoration.rs). -/
def SelectLocal.visit_term (s : SelectLocal) (term : MirTerminator) : SelectLocal :=
  match term with
  | MirTerminator.Call destination_local fn_span =>
    s.select SelectReason.Call destination_local fn_span
  | _ => s

/-- `mir_visit` (src/utils.rs): function, then all declarations, then each
basic block's statements followed by its terminator. -/
def mir_visit {σ : Type} (f : Function) (vf : σ → Function → σ)
    (vd : σ → MirDecl → σ) (vs : σ → MirStatement → σ)
    (vt : σ → MirTerminator → σ) (s : σ) : σ :=
  let s1 := vf s f
  let s2 := f.decls.foldl vd s1
  f.basic_blocks.foldl
    (fun st bb =>
      let st' := bb.statements.foldl vs st
      match bb.terminator with
      | some t => vt st' t
      | none => st')
    s2

/-- Run the selector over a function (`SelectLocal` leaves `visit_func` at
its default no-op). -/
def runSelectLocal (f : Function) (pos : Nat) : SelectLocal :=
  mir_visit f (fun s _ => s) SelectLocal.visit_decl SelectLocal.visit_stmt
    SelectLocal.visit_term (SelectLocal.new pos)

/-- `select` on an empty selection records the event when the local is a
candidate and the (inclusive) containment test passes. -/
theorem select_of_none {s : SelectLocal} {reason : SelectReason} {lcl : FnLocal}
    {r : Range} (hc : lcl ∈ s.candidate_local_decls) (hs : s.selected = none)
    (h1 : r.fromL ≤ s.pos) (h2 : s.pos ≤ r.untilL) :
    s.select reason lcl r = s.withSel (reason, lcl, r) := by
  unfold SelectLocal.select
  rw [if_pos hc, if_pos ⟨h1, h2⟩, hs]

/-- `select` either keeps the state or overwrites the selection with the
offered event, and in the latter case the event's local was a candidate and
its range contains the cursor. -/
theorem select_spec (s : SelectLocal) (reason : SelectReason) (lcl : FnLocal)
    (r : Range) :
    s.select reason lcl r = s ∨
    (s.select reason lcl r = s.withSel (reason, lcl, r) ∧
      r.fromL ≤ s.pos ∧ s.pos ≤ r.untilL ∧ lcl ∈ s.candidate_local_decls) := by
  unfold SelectLocal.select
  by_cases hc : lcl ∈ s.candidate_local_decls
  · rw [if_pos hc]
    by_cases hin : r.fromL ≤ s.pos ∧ s.pos ≤ r.untilL
    · rw [if_pos hin]
      rcases hsel : s.selected with _ | v
      · right
        exact ⟨rfl, hin.1, hin.2, hc⟩
      · rcases v with ⟨old_reason, old_lcl, old_range⟩
        rcases old_reason <;> rcases reason <;>
          first
            | (left; rfl)
            | (rcases Nat.lt_or_ge r.size old_range.size with hsz | hsz
               · right
                 refine ⟨?_, hin.1, hin.2, hc⟩
                 exact if_pos hsz
               · left
                 exact if_neg (by omega))
            | (rcases Nat.lt_or_ge old_range.size r.size with hsz | hsz
               · right
                 refine ⟨?_, hin.1, hin.2, hc⟩
                 exact if_pos hsz
               · left
                 exact if_neg (by omega))
    · rw [if_neg hin]
      left
      rfl
  · rw [if_neg hc]
    left
    rfl

/-- A declaration-site selection is never replaced by a move, borrow or
call event. -/
theorem select_keeps_var {s : SelectLocal} {reason : SelectReason}
    {lcl : FnLocal} {r : Range} (hne : reason ≠ SelectReason.Var)
    {l0 : FnLocal} {r0 : Range}
    (hsel : s.selected = some (SelectReason.Var, l0, r0)) :
    s.select reason lcl r = s := by
  unfold SelectLocal.select
  by_cases hc : lcl ∈ s.candidate_local_decls
  · rw [if_pos hc]
    by_cases hin : r.fromL ≤ s.pos ∧ s.pos ≤ r.untilL
    · rw [if_pos hin, hsel]
      rcases reason
      · exact absurd rfl hne
      · rfl
      · rfl
      · rfl
    · rw [if_neg hin]
  · rw [if_neg hc]

/-- `d` is the user declaration of `lcl` with span `span`. -/
def declIsUserWith (d : MirDecl) (lcl : FnLocal) (span : Range) : Prop :=
  match d with
  | MirDecl.User l _ sp _ _ _ _ _ _ _ => l = lcl ∧ sp = span
  | MirDecl.Other _ _ _ _ _ _ _ _ => False

/-- A user declaration of `f` that is a selectable candidate (type not
excluded) and whose declaration-site span contains the cursor. -/
def IsGoodUserDecl (f : Function) (pos : Nat) (d : MirDecl) : Prop :=
  d ∈ f.decls ∧
  (match d with
    | MirDecl.User _ _ span ty _ _ _ _ _ _ =>
      ty ∉ ASYNC_RESUME_TY ∧ span.fromL ≤ pos ∧ pos ≤ span.untilL
    | MirDecl.Other _ _ _ _ _ _ _ _ => False)

/-- The current selection is a declaration-site match: reason `Var`, the
pair coming from a user declaration of `f` whose span contains the cursor. -/
def GoodVarSel (f : Function) (pos : Nat) (s : SelectLocal) : Prop :=
  ∃ lcl span, s.selected = some (SelectReason.Var, lcl, span) ∧
    span.fromL ≤ pos ∧ pos ≤ span.untilL ∧ ∃ d ∈ f.decls, declIsUserWith d lcl span

/-- Invariant during the declaration phase. -/
def SelInv (f : Function) (pos : Nat) (s : SelectLocal) : Prop :=
  s.pos = pos ∧ (s.selected = none ∨ GoodVarSel f pos s)

theorem visit_decl_keeps_some {s : SelectLocal} {d : MirDecl}
    {v : SelectReason × FnLocal × Range} (h : s.selected = some v) :
    ∃ v', (s.visit_decl d).selected = some v' := by
  rcases d with ⟨lcl, name, span, ty, l1, l2, l3, b1, l4, l5⟩ |
    ⟨lcl, ty, l1, l2, l3, b1, l4, l5⟩
  · have hred : s.visit_decl (MirDecl.User lcl name span ty l1 l2 l3 b1 l4 l5) =
        (if ty ∈ ASYNC_RESUME_TY then s
          else (⟨s.pos, s.candidate_local_decls ++ [lcl], s.selected⟩ :
              SelectLocal).select SelectReason.Var lcl span) := rfl
    rw [hred]
    split_ifs with hty
    · exact ⟨v, h⟩
    · rcases select_spec ⟨s.pos, s.candidate_local_decls ++ [lcl], s.selected⟩
          SelectReason.Var lcl span with hsp | ⟨hsp, _⟩
      · rw [hsp]
        exact ⟨v, h⟩
      · rw [hsp]
        exact ⟨(SelectReason.Var, lcl, span), rfl⟩
  · have hred : s.visit_decl (MirDecl.Other lcl ty l1 l2 l3 b1 l4 l5) =
        (if ty ∈ ASYNC_RESUME_TY then s
          else ⟨s.pos, s.candidate_local_decls ++ [lcl], s.selected⟩) := rfl
    rw [hred]
    split_ifs with hty
    · exact ⟨v, h⟩
    · exact ⟨v, h⟩

theorem visit_decl_inv {f : Function} {pos : Nat} {s : SelectLocal}
    {d : MirDecl} (hd : d ∈ f.decls) (hInv : SelInv f pos s) :
    SelInv f pos (s.visit_decl d) ∧
    (IsGoodUserDecl f pos d → GoodVarSel f pos (s.visit_decl d)) := by
  obtain ⟨hpos, hsel⟩ := hInv
  rcases d with ⟨lcl, name, span, ty, l1, l2, l3, b1, l4, l5⟩ |
    ⟨lcl, ty, l1, l2, l3, b1, l4, l5⟩
  · have hred : s.visit_decl (MirDecl.User lcl name span ty l1 l2 l3 b1 l4 l5) =
        (if ty ∈ ASYNC_RESUME_TY then s
          else (⟨s.pos, s.candidate_local_decls ++ [lcl], s.selected⟩ :
              SelectLocal).select SelectReason.Var lcl span) := rfl
    rw [hred]
    split_ifs with hty
    · refine ⟨⟨hpos, hsel⟩, ?_⟩
      intro hgood
      obtain ⟨_, hne, _, _⟩ := hgood
      exact absurd hty hne
    · have hprov : declIsUserWith (MirDecl.User lcl name span ty l1 l2 l3 b1 l4 l5)
          lcl span := ⟨rfl, rfl⟩
      have hmem : lcl ∈
          (⟨s.pos, s.candidate_local_decls ++ [lcl], s.selected⟩ :
            SelectLocal).candidate_local_decls := by
        simp
      rcases select_spec ⟨s.pos, s.candidate_local_decls ++ [lcl], s.selected⟩
          SelectReason.Var lcl span with hsp | ⟨hsp, hin1, hin2, _⟩
      · -- selection unchanged by this declaration
        constructor
        · refine ⟨by rw [hsp]; exact hpos, ?_⟩
          rcases hsel with hnone | hgood
          · left
            rw [hsp]
            exact hnone
          · right
            obtain ⟨l0, r0, he, h1, h2, hdd⟩ := hgood
            exact ⟨l0, r0, by rw [hsp]; exact he, h1, h2, hdd⟩
        · intro hgood
          obtain ⟨_, _, hg1, hg2⟩ := hgood
          rcases hsel with hnone | hgold
          · have hupd := @select_of_none
              ⟨s.pos, s.candidate_local_decls ++ [lcl], s.selected⟩
              SelectReason.Var lcl span hmem hnone
              (by show span.fromL ≤ s.pos; omega)
              (by show s.pos ≤ span.untilL; omega)
            rw [hupd]
            exact ⟨lcl, span, rfl, by omega, by omega, _, hd, hprov⟩
          · obtain ⟨l0, r0, he, h1, h2, hdd⟩ := hgold
            exact ⟨l0, r0, by rw [hsp]; exact he, h1, h2, hdd⟩
      · -- selection replaced by this declaration-site match
        have hin1' : span.fromL ≤ s.pos := hin1
        have hin2' : s.pos ≤ span.untilL := hin2
        have hnew : GoodVarSel f pos
            ((⟨s.pos, s.candidate_local_decls ++ [lcl], s.selected⟩ :
              SelectLocal).select SelectReason.Var lcl span) :=
          ⟨lcl, span, by rw [hsp]; rfl, by omega, by omega, _, hd, hprov⟩
        refine ⟨⟨by rw [hsp]; exact hpos, Or.inr hnew⟩, fun _ => hnew⟩
  · have hred : s.visit_decl (MirDecl.Other lcl ty l1 l2 l3 b1 l4 l5) =
        (if ty ∈ ASYNC_RESUME_TY then s
          else ⟨s.pos, s.candidate_local_decls ++ [lcl], s.selected⟩) := rfl
    rw [hred]
    split_ifs with hty
    · refine ⟨⟨hpos, hsel⟩, ?_⟩
      intro hgood
      obtain ⟨_, hbad⟩ := hgood
      exact hbad.elim
    · constructor
      · refine ⟨hpos, ?_⟩
        rcases hsel with hnone | hgood
        · left
          exact hnone
        · right
          obtain ⟨l0, r0, he, h1, h2, hdd⟩ := hgood
          exact ⟨l0, r0, he, h1, h2, hdd⟩
      · intro hgood
        obtain ⟨_, hbad⟩ := hgood
        exact hbad.elim

/-- A declaration-site selection survives every statement visit: the only
statement events are moves and borrows, which never replace a `Var`
selection. -/
theorem visit_stmt_keeps_var {s : SelectLocal} {l0 : FnLocal} {r0 : Range}
    (hsel : s.selected = some (SelectReason.Var, l0, r0))
    (stmt : MirStatement) : s.visit_stmt stmt = s := by
  rcases stmt with ⟨_, _⟩ | ⟨_, _⟩ | ⟨tl, rg, rv⟩ | _
  · rfl
  · rfl
  · rcases rv with _ | mv
    · rfl
    · rcases mv with ⟨t2, r2⟩ | ⟨t2, r2, m, o⟩
      · exact select_keeps_var (by intro h; cases h) hsel
      · exact select_keeps_var (by intro h; cases h) hsel
  · rfl

/-- A declaration-site selection survives every terminator visit: the only
terminator event is a call, which never replaces a `Var` selection. -/
theorem visit_term_keeps_var {s : SelectLocal} {l0 : FnLocal} {r0 : Range}
    (hsel : s.selected = some (SelectReason.Var, l0, r0))
    (term : MirTerminator) : s.visit_term term = s := by
  rcases term with ⟨_, _⟩ | ⟨dl, sp⟩ | _
  · rfl
  · exact select_keeps_var (by intro h; cases h) hsel
  · rfl

/-- Folding the statement visitor over any statement list leaves a
`Var`-selected state unchanged. -/
theorem stmt_fold_keeps_var {s : SelectLocal} {l0 : FnLocal} {r0 : Range}
    (hsel : s.selected = some (SelectReason.Var, l0, r0)) :
    ∀ stmts : List MirStatement, stmts.foldl SelectLocal.visit_stmt s = s := by
  intro stmts
  induction stmts with
  | nil => rfl
  | cons st rest ih =>
    rw [List.foldl_cons, visit_stmt_keeps_var hsel st]
    exact ih

/-- The per-basic-block step of `mir_visit` specialised to the selector. -/
def selVisitBB (st : SelectLocal) (bb : MirBasicBlock) : SelectLocal :=
  let st' := bb.statements.foldl SelectLocal.visit_stmt st
  match bb.terminator with
  | some t => st'.visit_term t
  | none => st'

/-- One basic block leaves a `Var`-selected state unchanged. -/
theorem selVisitBB_keeps_var {s : SelectLocal} {l0 : FnLocal} {r0 : Range}
    (hsel : s.selected = some (SelectReason.Var, l0, r0))
    (bb : MirBasicBlock) : selVisitBB s bb = s := by
  rcases bb with ⟨stmts, term⟩
  have h1 : stmts.foldl SelectLocal.visit_stmt s = s := stmt_fold_keeps_var hsel stmts
  rcases term with _ | t
  · show stmts.foldl SelectLocal.visit_stmt s = s
    exact h1
  · show (stmts.foldl SelectLocal.visit_stmt s).visit_term t = s
    rw [h1]
    exact visit_term_keeps_var hsel t

/-- The whole basic-block phase leaves a `Var`-selected state unchanged. -/
theorem bb_fold_keeps_var {s : SelectLocal} {l0 : FnLocal} {r0 : Range}
    (hsel : s.selected = some (SelectReason.Var, l0, r0)) :
    ∀ bbs : List MirBasicBlock, bbs.foldl selVisitBB s = s := by
  intro bbs
  induction bbs with
  | nil => rfl
  | cons bb rest ih =>
    rw [List.foldl_cons, selVisitBB_keeps_var hsel bb]
    exact ih

/-- A declaration-site match, once established, survives the rest of the
declaration fold. -/
theorem goodVarSel_fold_preserved {f : Function} {pos : Nat} :
    ∀ (ds : List MirDecl) (s : SelectLocal), (∀ d ∈ ds, d ∈ f.decls) →
      SelInv f pos s → GoodVarSel f pos s →
      GoodVarSel f pos (ds.foldl SelectLocal.visit_decl s) := by
  intro ds
  induction ds with
  | nil =>
    intro s _ _ hg
    exact hg
  | cons d rest ih =>
    intro s hmem hInv hg
    have hd : d ∈ f.decls := hmem d (List.mem_cons_self d rest)
    obtain ⟨hInv', _⟩ := visit_decl_inv hd hInv
    obtain ⟨lcl, span, hsel, _⟩ := hg
    obtain ⟨v', hsome⟩ :=
      @visit_decl_keeps_some s d (SelectReason.Var, lcl, span) hsel
    have hg' : GoodVarSel f pos (s.visit_decl d) := by
      rcases hInv'.2 with hnone | hgood
      · rw [hnone] at hsome
        exact Option.noConfusion hsome
      · exact hgood
    exact ih (s.visit_decl d) (fun d' h => hmem d' (List.mem_cons_of_mem d h))
      hInv' hg'

/-- The declaration fold preserves the phase invariant, and produces a
declaration-site selection whenever some visited declaration is a user
declaration whose span contains the cursor. -/
theorem decl_fold_inv {f : Function} {pos : Nat} :
    ∀ (ds : List MirDecl) (s : SelectLocal), (∀ d ∈ ds, d ∈ f.decls) →
      SelInv f pos s →
      SelInv f pos (ds.foldl SelectLocal.visit_decl s) ∧
      ((∃ d ∈ ds, IsGoodUserDecl f pos d) →
        GoodVarSel f pos (ds.foldl SelectLocal.visit_decl s)) := by
  intro ds
  induction ds with
  | nil =>
    intro s _ hInv
    refine ⟨hInv, ?_⟩
    rintro ⟨d, hd, _⟩
    exact absurd hd (List.not_mem_nil d)
  | cons d rest ih =>
    intro s hmem hInv
    have hd : d ∈ f.decls := hmem d (List.mem_cons_self d rest)
    obtain ⟨hInv', hgoodstep⟩ := visit_decl_inv hd hInv
    have hmem' : ∀ d' ∈ rest, d' ∈ f.decls :=
      fun d' h => hmem d' (List.mem_cons_of_mem d h)
    obtain ⟨hInvF, hgoodF⟩ := ih (s.visit_decl d) hmem' hInv'
    refine ⟨hInvF, ?_⟩
    rintro ⟨d', hd', hgood'⟩
    rcases List.mem_cons.mp hd' with heq | hmemrest
    · exact goodVarSel_fold_preserved rest (s.visit_decl d) hmem' hInv'
        (hgoodstep (heq ▸ hgood'))
    · exact hgoodF ⟨d', hmemrest, hgood'⟩

/-- Running the selector on a function with a user declaration whose span
contains the cursor yields a declaration-site (`Var`) selection backed by a
user declaration of the function. -/
theorem runSelect_good {f : Function} {pos : Nat} {d : MirDecl}
    (hgood : IsGoodUserDecl f pos d) :
    GoodVarSel f pos (runSelectLocal f pos) := by
  have hInv0 : SelInv f pos (SelectLocal.new pos) := ⟨rfl, Or.inl rfl⟩
  obtain ⟨_, hgood2⟩ :=
    decl_fold_inv f.decls (SelectLocal.new pos) (fun _ h => h) hInv0
  have hg2 : GoodVarSel f pos
      (f.decls.foldl SelectLocal.visit_decl (SelectLocal.new pos)) :=
    hgood2 ⟨d, hgood.1, hgood⟩
  obtain ⟨lcl, span, hsel, h1, h2, hdd⟩ := hg2
  have hrun : runSelectLocal f pos =
      f.basic_blocks.foldl selVisitBB
        (f.decls.foldl SelectLocal.visit_decl (SelectLocal.new pos)) := rfl
  rw [hrun, bb_fold_keeps_var hsel f.basic_blocks]
  exact ⟨lcl, span, hsel, h1, h2, hdd⟩

/-- The concrete scenario of C6: cursor 3, user declaration of `x` with
span [0, 10), and a narrower move of `x` with range [2, 4) in the single
basic block. -/
def c6Fn : Function :=
  ⟨0,
   [⟨[MirStatement.Assign ⟨2, 0⟩ ⟨2, 4⟩ (some (MirRval.Move ⟨1, 0⟩ ⟨2, 4⟩))],
     none⟩],
   [MirDecl.User ⟨1, 0⟩ "x" ⟨0, 10⟩ "T" [] [] [] false [] [],
    MirDecl.Other ⟨2, 0⟩ "U" [] [] [] false [] []]⟩

/-- C6: a declaration-site match determines the selected variable and no
move, borrow or call event ever replaces it.  (1) `select` with any
non-`Var` reason leaves a `Var`-selected state unchanged; (2) running the
selector on any function containing a user declaration whose span contains
the cursor ends with a `Var` selection backed by a user declaration of the
function; (3) concretely, with cursor 3, declaration span [0, 10) and a
narrower move range [2, 4) of the same variable, the selector returns the
declaration's variable with the declaration span. -/
theorem selector_decl_priority_c6 :
    (∀ (s : SelectLocal) (reason : SelectReason) (lcl l0 : FnLocal)
        (r r0 : Range), reason ≠ SelectReason.Var →
        s.selected = some (SelectReason.Var, l0, r0) →
        s.select reason lcl r = s) ∧
    (∀ (f : Function) (pos : Nat) (d : MirDecl), IsGoodUserDecl f pos d →
        GoodVarSel f pos (runSelectLocal f pos)) ∧
    (runSelectLocal c6Fn 3).selected =
      some (SelectReason.Var, ⟨1, 0⟩, ⟨0, 10⟩) := by
  refine ⟨?_, ?_, ?_⟩
  · intro s reason lcl l0 r r0 hne hsel
    exact select_keeps_var hne hsel
  · intro f pos d hgood
    exact runSelect_good hgood
  · rfl

/-- Witness for C6: the `Var`-keeping conjunct applied at a concrete state
where a narrower move offers to replace a declaration selection, and the
general conjunct applied to the concrete scenario function. -/
theorem selector_decl_priority_c6_witness :
    (⟨3, [⟨1, 0⟩], some (SelectReason.Var, ⟨1, 0⟩, ⟨0, 10⟩)⟩ :
        SelectLocal).select SelectReason.Move ⟨1, 0⟩ ⟨2, 4⟩ =
      ⟨3, [⟨1, 0⟩], some (SelectReason.Var, ⟨1, 0⟩, ⟨0, 10⟩)⟩ ∧
    GoodVarSel c6Fn 3 (runSelectLocal c6Fn 3) :=
  ⟨selector_decl_priority_c6.1
      ⟨3, [⟨1, 0⟩], some (SelectReason.Var, ⟨1, 0⟩, ⟨0, 10⟩)⟩
      SelectReason.Move ⟨1, 0⟩ ⟨1, 0⟩ ⟨2, 4⟩ ⟨0, 10⟩ (by intro h; cases h) rfl,
   selector_decl_priority_c6.2.1 c6Fn 3
     (MirDecl.User ⟨1, 0⟩ "x" ⟨0, 10⟩ "T" [] [] [] false [] [])
     ⟨by simp [c6Fn], by decide, by decide, by decide⟩⟩

/-- C10: the containment test of `SelectLocal::select` is inclusive at the
upper bound: with an empty prior selection and the local a candidate, a
cursor position exactly equal to the range's `until` still records the
event. -/
theorem select_inclusive_c10 (s : SelectLocal) (reason : SelectReason)
    (lcl : FnLocal) (r : Range) (hc : lcl ∈ s.candidate_local_decls)
    (hs : s.selected = none) (h1 : r.fromL ≤ s.pos) (h2 : s.pos = r.untilL) :
    (s.select reason lcl r).selected = some (reason, lcl, r) := by
  rw [select_of_none hc hs h1 (by omega)]
  rfl

/-- Witness for C10: cursor 5 and range [2, 5) — the cursor sits exactly at
`until`, and the move event is still recorded. -/
theorem select_inclusive_c10_witness :
    ((⟨5, [⟨1, 0⟩], none⟩ : SelectLocal).select SelectReason.Move ⟨1, 0⟩
        ⟨2, 5⟩).selected = some (SelectReason.Move, ⟨1, 0⟩, ⟨2, 5⟩) :=
  select_inclusive_c10 ⟨5, [⟨1, 0⟩], none⟩ SelectReason.Move ⟨1, 0⟩ ⟨2, 5⟩
    (by decide) rfl (by decide) rfl

/-- `HashMap::get` on the string-keyed maps of the cache, embedded as an
association-list lookup. -/
def hmGet {β : Type} : List (String × β) → String → Option β
  | [], _ => none
  | (k, v) :: rest, key => if k = key then some v else hmGet rest key

/-- `CacheData` (src/mir_cache.rs): file hash → (MIR body hash → analyzed
function). -/
abbrev CacheData := List (String × List (String × Function))

/-- `CacheData::new` (src/mir_cache.rs). -/
def CacheData.new : CacheData := []

/-- `CacheData::get_cache` (src/mir_cache.rs):
`self.0.get(file_hash).and_then(|v| v.get(mir_hash)).cloned()`. -/
def CacheData.get_cache (c : CacheData) (file_hash mir_hash : String) :
    Option Function :=
  match hmGet c file_hash with
  | some m => hmGet m mir_hash
  | none => none

/-- `get_cache` (src/mir_cache.rs), with the environment and file system
abstracted: `cacheDirSet` is whether the cache-directory variable is set,
`readResult` the outcome of `fs::read_to_string`, and `parse` the result of
`serde_json::from_str(..).ok()` on the file's text.  An unreadable file
yields `Some(CacheData::new())`; a read string is handed to the parser,
whose failure yields `None`. -/
def getCacheLoad (cacheDirSet : Bool) (readResult : Except String String)
    (parse : String → Option CacheData) : Option CacheData :=
  match cacheDirSet with
  | true =>
    match readResult with
    | Except.error _ => some CacheData.new
    | Except.ok s => parse s
  | false => none

/-- The cache lookup performed by `MirAnalyzer::init`
(src/compiler/analyze.rs): only a `Some` cache is consulted; a `None`
cache (or a miss) falls through to fresh analysis. -/
def initCacheLookup (cache : Option CacheData) (file_hash mir_hash : String) :
    Option Function :=
  match cache with
  | some c => c.get_cache file_hash mir_hash
  | none => none

/-- C7 counterexample: with the cache directory set and a readable file
whose contents fail to parse, `get_cache` returns `None`, not the empty
cache store the claim promises. -/
theorem cache_load_c7_counterexample :
    getCacheLoad true (Except.ok "not json") (fun _ => none) = none ∧
    getCacheLoad true (Except.ok "not json") (fun _ => none) ≠
      some CacheData.new :=
  ⟨rfl, fun h => Option.noConfusion h⟩

/-- C7 (amended): an unreadable cache file is replaced by the empty cache
store, but malformed contents yield `None` (cache treated as absent); in
either case — and for every lookup in the empty store — the
`MirAnalyzer::init` lookup misses and analysis proceeds uncached, so the
load never fails the analysis. -/
theorem cache_load_c7_amended :
    (∀ (p : String → Option CacheData) (e : String),
        getCacheLoad true (Except.error e) p = some CacheData.new) ∧
    (∀ (p : String → Option CacheData) (s : String), p s = none →
        getCacheLoad true (Except.ok s) p = none) ∧
    (∀ (fh mh : String), initCacheLookup none fh mh = none) ∧
    (∀ (fh mh : String),
        initCacheLookup (some CacheData.new) fh mh = none) := by
  refine ⟨fun p e => rfl, ?_, fun fh mh => rfl, fun fh mh => rfl⟩
  intro p s hp
  show p s = none
  exact hp

/-- Witness for C7 (amended): a concrete parser failure and a concrete
error, with concrete lookups. -/
theorem cache_load_c7_amended_witness :
    getCacheLoad true (Except.error "io error") (fun _ => none) =
      some CacheData.new ∧
    getCacheLoad true (Except.ok "oops") (fun _ => none) = none ∧
    initCacheLookup none "f" "m" = none ∧
    initCacheLookup (some CacheData.new) "f" "m" = none :=
  ⟨cache_load_c7_amended.1 (fun _ => none) "io error",
   cache_load_c7_amended.2.1 (fun _ => none) "oops" rfl,
   cache_load_c7_amended.2.2.1 "f" "m",
   cache_load_c7_amended.2.2.2 "f" "m"⟩

/-- `RichLocation` (src/mir_transform.rs), block indices as naturals. -/
inductive RichLocation
  | Start (block : Nat) (statement_index : Nat)
  | Mid (block : Nat) (statement_index : Nat)
deriving DecidableEq, Repr

/-- The comparator of `sort_locs` (src/mir_analysis.rs) as a Boolean
`le`: lexicographic on (block, statement index). -/
def locLe (a b : Nat × Nat) : Bool :=
  decide (a.1 < b.1 ∨ (a.1 = b.1 ∧ a.2 ≤ b.2))

/-- Stable insertion of one location into a sorted prefix: an element goes
after every earlier element it does not strictly precede. -/
def insertLoc (a : Nat × Nat) : List (Nat × Nat) → List (Nat × Nat)
  | [] => [a]
  | b :: rest => if locLe b a then b :: insertLoc a rest else a :: b :: rest

/-- `sort_locs` (src/mir_analysis.rs): a stable sort by the lexicographic
comparator (`sort_by` in Rust is stable; any stable sort by the same total
preorder computes the same list). -/
def sortLocs (l : List (Nat × Nat)) : List (Nat × Nat) :=
  l.foldl (fun acc a => insertLoc a acc) []

/-- `statement_location_to_range` (src/mir_transform.rs). -/
def statement_location_to_range (basic_blocks : List MirBasicBlock)
    (basic_block statement : Nat) : Option Range :=
  match basic_blocks[basic_block]? with
  | none => none
  | some bb =>
    if statement < bb.statements.length then
      (bb.statements[statement]?).map MirStatement.range
    else
      bb.terminator.map MirTerminator.range

/-- The per-pair conversion inside `rich_locations_to_ranges`
(src/mir_transform.rs). -/
def pairConvert (basic_blocks : List MirBasicBlock)
    (p : (Nat × Nat) × (Nat × Nat)) : Option Range :=
  match statement_location_to_range basic_blocks p.1.1 p.1.2,
      statement_location_to_range basic_blocks p.2.1 p.2.2 with
  | some s, some m => Range.new s.fromL m.untilL
  | _, _ => none

/-- The `Start` locations, in input order. -/
def startsOf (locations : List RichLocation) : List (Nat × Nat) :=
  locations.filterMap fun r =>
    match r with
    | RichLocation.Start b s => some (b, s)
    | RichLocation.Mid _ _ => none

/-- The `Mid` locations, in input order. -/
def midsOf (locations : List RichLocation) : List (Nat × Nat) :=
  locations.filterMap fun r =>
    match r with
    | RichLocation.Start _ _ => none
    | RichLocation.Mid b s => some (b, s)

/-- `rich_locations_to_ranges` (src/mir_transform.rs): split into starts
and mids, sort each, zip (truncating to the shorter), convert each pair,
drop the failures. -/
def rich_locations_to_ranges (basic_blocks : List MirBasicBlock)
    (locations : List RichLocation) : List Range :=
  ((sortLocs (startsOf locations)).zip (sortLocs (midsOf locations))).filterMap
    (pairConvert basic_blocks)

/-- C8 counterexample: a statement index past the end of a block that has
a terminator is not skipped — the lookup falls back to the terminator's
range and the pair is converted. -/
theorem rich_locations_c8_counterexample :
    rich_locations_to_ranges [⟨[], some (MirTerminator.Other ⟨0, 5⟩)⟩]
        [RichLocation.Start 0 7, RichLocation.Mid 0 9] = [⟨0, 5⟩] ∧
    rich_locations_to_ranges [⟨[], some (MirTerminator.Other ⟨0, 5⟩)⟩]
        [RichLocation.Start 0 7, RichLocation.Mid 0 9] ≠ [] :=
  ⟨rfl, fun h => List.noConfusion h⟩

/-- C8 (amended): the conversion is total and skips pairs by returning
`None` per lookup — an out-of-range block index yields `None`; an
out-of-range statement index yields `None` only when the block has no
terminator, and otherwise falls back to the terminator's range; an
in-range statement index yields that statement's range; and a pair whose
conversion fails is dropped without affecting the conversion of the other
pairs. -/
theorem rich_locations_c8_amended :
    (∀ (bbs : List MirBasicBlock) (locs : List RichLocation),
        rich_locations_to_ranges bbs locs =
          ((sortLocs (startsOf locs)).zip
            (sortLocs (midsOf locs))).filterMap (pairConvert bbs)) ∧
    (∀ (bbs : List MirBasicBlock) (b s : Nat), bbs[b]? = none →
        statement_location_to_range bbs b s = none) ∧
    (∀ (bbs : List MirBasicBlock) (b s : Nat) (bb : MirBasicBlock),
        bbs[b]? = some bb → bb.statements.length ≤ s → bb.terminator = none →
        statement_location_to_range bbs b s = none) ∧
    (∀ (bbs : List MirBasicBlock) (b s : Nat) (bb : MirBasicBlock)
        (h : s < bb.statements.length), bbs[b]? = some bb →
        statement_location_to_range bbs b s =
          some (bb.statements.get ⟨s, h⟩).range) ∧
    (∀ (bbs : List MirBasicBlock) (b s : Nat) (bb : MirBasicBlock)
        (t : MirTerminator), bbs[b]? = some bb → bb.statements.length ≤ s →
        bb.terminator = some t →
        statement_location_to_range bbs b s = some t.range) ∧
    (∀ (bbs : List MirBasicBlock)
        (ps qs : List ((Nat × Nat) × (Nat × Nat)))
        (p : (Nat × Nat) × (Nat × Nat)), pairConvert bbs p = none →
        (ps ++ p :: qs).filterMap (pairConvert bbs) =
          (ps ++ qs).filterMap (pairConvert bbs)) := by
  refine ⟨fun bbs locs => rfl, ?_, ?_, ?_, ?_, ?_⟩
  · intro bbs b s h
    unfold statement_location_to_range
    rw [h]
  · intro bbs b s bb hb hle ht
    have hstep : statement_location_to_range bbs b s =
        if s < bb.statements.length then
          (bb.statements[s]?).map MirStatement.range
        else bb.terminator.map MirTerminator.range := by
      unfold statement_location_to_range
      rw [hb]
    rw [hstep, if_neg (by omega), ht]
    rfl
  · intro bbs b s bb h hb
    have hstep : statement_location_to_range bbs b s =
        if s < bb.statements.length then
          (bb.statements[s]?).map MirStatement.range
        else bb.terminator.map MirTerminator.range := by
      unfold statement_location_to_range
      rw [hb]
    rw [hstep, if_pos h, List.getElem?_eq_getElem h]
    rfl
  · intro bbs b s bb t hb hle ht
    have hstep : statement_location_to_range bbs b s =
        if s < bb.statements.length then
          (bb.statements[s]?).map MirStatement.range
        else bb.terminator.map MirTerminator.range := by
      unfold statement_location_to_range
      rw [hb]
    rw [hstep, if_neg (by omega), ht]
    rfl
  · intro bbs ps qs p hp
    rw [List.filterMap_append, List.filterMap_append]
    have hc : (p :: qs).filterMap (pairConvert bbs) =
        qs.filterMap (pairConvert bbs) := by
      simp [List.filterMap_cons, hp]
    rw [hc]

/-- Witness for C8 (amended): each lookup case and the skip property at
concrete inputs. -/
theorem rich_locations_c8_amended_witness :
    statement_location_to_range [] 0 0 = none ∧
    statement_location_to_range [⟨[], none⟩] 0 0 = none ∧
    statement_location_to_range [⟨[MirStatement.Other ⟨1, 2⟩], none⟩] 0 0 =
      some ⟨1, 2⟩ ∧
    statement_location_to_range [⟨[], some (MirTerminator.Other ⟨0, 5⟩)⟩] 0 3 =
      some ⟨0, 5⟩ ∧
    ([] ++ ((0, 0), (0, 0)) :: []).filterMap (pairConvert []) =
      ([] ++ []).filterMap (pairConvert []) :=
  ⟨rich_locations_c8_amended.2.1 [] 0 0 rfl,
   rich_locations_c8_amended.2.2.1 [⟨[], none⟩] 0 0 ⟨[], none⟩ rfl
     (by decide) rfl,
   rich_locations_c8_amended.2.2.2.1 [⟨[MirStatement.Other ⟨1, 2⟩], none⟩] 0 0
     ⟨[MirStatement.Other ⟨1, 2⟩], none⟩ (by decide) rfl,
   rich_locations_c8_amended.2.2.2.2.1
     [⟨[], some (MirTerminator.Other ⟨0, 5⟩)⟩] 0 3
     ⟨[], some (MirTerminator.Other ⟨0, 5⟩)⟩ (MirTerminator.Other ⟨0, 5⟩) rfl
     (by decide) rfl,
   rich_locations_c8_amended.2.2.2.2.2 [] [] [] ((0, 0), (0, 0)) rfl⟩

/-- Default used for out-of-bounds vector reads in the loop embedding; the
Rust code would panic there, and the embedded loop never reads out of
bounds on reachable states. -/
def defaultDeco : Deco := ⟨DecoKind.Lifetime, ⟨0, 0⟩, ⟨0, 0⟩, "", false⟩

/-- Stable insertion of one decoration into a sorted prefix (later
elements go after earlier comparator-equal ones). -/
def insertDeco (a : Deco) : List Deco → List Deco
  | [] => [a]
  | b :: rest =>
    if get_deco_order b ≤ get_deco_order a then b :: insertDeco a rest
    else a :: b :: rest

/-- `CalcDecos::sort_by_definition` (src/lsp/decoration.rs): a stable sort
by `get_deco_order` (`sort_by_key` in Rust is stable; any stable sort by
the same key computes the same list). -/
def sortDecos (l : List Deco) : List Deco :=
  l.foldl (fun acc a => insertDeco a acc) []

/-- The in-place update `*range = common; *overlapped = true` applied to
`decorations[j]` (src/lsp/decoration.rs, handle_overlapping). -/
def hoClip (p : Deco) (c : Range) : Deco :=
  ⟨p.kind, p.local_, c, p.hover_text, true⟩

/-- A residual decoration built from `prev` with a trimmed range and
`overlapped: false` (src/lsp/decoration.rs, handle_overlapping). -/
def hoPiece (p : Deco) (r : Range) : Deco :=
  ⟨p.kind, p.local_, r, p.hover_text, false⟩

/-- Control state of the two nested loops of `handle_overlapping`:
`Outer decos i` is the head of the outer `while`, `Inner decos i j cur` the
head of the inner `while` with the captured `current_range`. -/
inductive HoSt
  | Outer (decos : List Deco) (i : Nat)
  | Inner (decos : List Deco) (i j : Nat) (cur : Range)

/-- The decoration list of a loop state. -/
def HoSt.decosOf : HoSt → List Deco
  | HoSt.Outer decos _ => decos
  | HoSt.Inner decos _ _ _ => decos

/-- The inner-loop decision against predecessor `prev` when it is not a
duplicate and not overlapped (src/lsp/decoration.rs, handle_overlapping):
`some none` means no intersection (just advance `j`), `some (some (c,
pieces))` means `common_range` found `c` and `exclude_ranges` (with fuel
`ef`) returned the trimmed remainders, and `none` means the embedded
`exclude_ranges` ran out of fuel. -/
def hoDecide (ef : Nat) (prev : Deco) (cur : Range) :
    Option (Option (Range × List Range)) :=
  match common_range cur prev.range with
  | none => some none
  | some c =>
    match exclude_ranges ef [prev.range] [c] with
    | some pieces => some (some (c, pieces))
    | none => none

/-- The loop body of `CalcDecos::handle_overlapping`
(src/lsp/decoration.rs), one state transition per fuel unit.  `ef` is the
fuel handed to each inner `exclude_ranges` call.  The outer loop captures
`current_range` from `decorations[i]` on entry; the inner loop re-reads
`decorations[i]` for the duplicate test, skips overlapped predecessors,
and on an intersection clips `decorations[j]` to the common range, marks
it overlapped, and splices the trimmed remainders in right after `j`.
A full-equality duplicate at `i` is removed and the outer iteration
restarts at the same `i`. -/
def hoRun (ef : Nat) : Nat → HoSt → Option (List Deco)
  | 0, _ => none
  | fuel + 1, HoSt.Outer decos i =>
    if i < decos.length then
      hoRun ef fuel (HoSt.Inner decos i 0 (decos.getD i defaultDeco).range)
    else some decos
  | fuel + 1, HoSt.Inner decos i j cur =>
    if j < i then
      if decos.getD j defaultDeco = decos.getD i defaultDeco then
        hoRun ef fuel (HoSt.Outer (decos.eraseIdx i) i)
      else if (decos.getD j defaultDeco).overlapped then
        hoRun ef fuel (HoSt.Inner decos i (j + 1) cur)
      else
        match hoDecide ef (decos.getD j defaultDeco) cur with
        | some (some (c, pieces)) =>
          hoRun ef fuel (HoSt.Inner
            ((decos.set j (hoClip (decos.getD j defaultDeco) c)).take (j + 1) ++
              pieces.map (hoPiece (decos.getD j defaultDeco)) ++
              (decos.set j (hoClip (decos.getD j defaultDeco) c)).drop (j + 1))
            i (j + 1) cur)
        | some none => hoRun ef fuel (HoSt.Inner decos i (j + 1) cur)
        | none => none
    else hoRun ef fuel (HoSt.Outer decos (i + 1))

/-- `CalcDecos::handle_overlapping` (src/lsp/decoration.rs): sort stably
by kind order, then run the nested loops from `i = 1`.  The loops are not
structurally terminating (insertions grow the list), so the embedding is
fuel-indexed and returns `none` when the fuel runs out. -/
def handle_overlapping (ef fuel : Nat) (decos : List Deco) : Option (List Deco) :=
  hoRun ef fuel (HoSt.Outer (sortDecos decos) 1)

theorem mem_insertDeco_of_mem {x : Deco} {a : Deco} :
    ∀ {l : List Deco}, x ∈ l → x ∈ insertDeco a l := by
  intro l
  induction l with
  | nil =>
    intro h
    exact absurd h (List.not_mem_nil x)
  | cons b rest ih =>
    intro h
    unfold insertDeco
    split_ifs with hle
    · rcases List.mem_cons.mp h with rfl | h2
      · exact List.mem_cons_self x _
      · exact List.mem_cons_of_mem b (ih h2)
    · exact List.mem_cons_of_mem a h

theorem mem_insertDeco_self (a : Deco) : ∀ l : List Deco, a ∈ insertDeco a l := by
  intro l
  induction l with
  | nil => exact List.mem_singleton.mpr rfl
  | cons b rest ih =>
    unfold insertDeco
    split_ifs with hle
    · exact List.mem_cons_of_mem b ih
    · exact List.mem_cons_self a _

theorem sortDecos_aux_mem :
    ∀ (l acc : List Deco) (d : Deco), d ∈ acc ∨ d ∈ l →
      d ∈ l.foldl (fun acc a => insertDeco a acc) acc := by
  intro l
  induction l with
  | nil =>
    intro acc d h
    rcases h with h | h
    · exact h
    · exact absurd h (List.not_mem_nil d)
  | cons a rest ih =>
    intro acc d h
    rw [List.foldl_cons]
    rcases h with h | h
    · exact ih (insertDeco a acc) d (Or.inl (mem_insertDeco_of_mem h))
    · rcases List.mem_cons.mp h with heq | h2
      · exact ih (insertDeco a acc) d (Or.inl (heq ▸ mem_insertDeco_self a acc))
      · exact ih (insertDeco a acc) d (Or.inr h2)

theorem sortDecos_mem {l : List Deco} {d : Deco} (h : d ∈ l) :
    d ∈ sortDecos l :=
  sortDecos_aux_mem l [] d (Or.inr h)

theorem mem_set_of_ne_getD {α : Type} {l : List α} {j : Nat} {x d dft : α}
    (hd : d ∈ l) (hne : d ≠ l.getD j dft) : d ∈ l.set j x := by
  by_cases hj : j < l.length
  · obtain ⟨k, hk, hkd⟩ := List.mem_iff_getElem.mp hd
    have hkj : k ≠ j := by
      intro heq
      subst heq
      apply hne
      rw [List.getD_eq_getElem l dft hj]
      exact hkd.symm
    refine List.mem_iff_getElem.mpr ⟨k, by simpa using hk, ?_⟩
    rw [List.getElem_set, if_neg (by omega)]
    exact hkd
  · rw [List.set_eq_of_length_le (by omega)]
    exact hd

theorem mem_splice {α : Type} {l : List α} {d : α} (m : Nat) (mid : List α)
    (hd : d ∈ l) : d ∈ l.take m ++ mid ++ l.drop m := by
  have h : d ∈ l.take m ++ l.drop m := by
    rw [List.take_append_drop]
    exact hd
  rcases List.mem_append.mp h with h1 | h1
  · exact List.mem_append.mpr (Or.inl (List.mem_append.mpr (Or.inl h1)))
  · exact List.mem_append.mpr (Or.inr h1)

theorem mem_eraseIdx_of_dupJ {α : Type} {l : List α} {i j : Nat} {d dft : α}
    (hji : j < i) (hdup : l.getD j dft = l.getD i dft) (hd : d ∈ l) :
    d ∈ l.eraseIdx i := by
  by_cases hi : i < l.length
  · have hj : j < l.length := by omega
    obtain ⟨k, hk, hkd⟩ := List.mem_iff_getElem.mp hd
    by_cases hki : k = i
    · subst hki
      refine List.mem_eraseIdx_iff_getElem.mpr ⟨j, hj, by omega, ?_⟩
      rw [List.getD_eq_getElem l dft hj, List.getD_eq_getElem l dft hi] at hdup
      rw [hdup]
      exact hkd
    · exact List.mem_eraseIdx_iff_getElem.mpr ⟨k, hk, hki, hkd⟩
  · rw [List.eraseIdx_of_length_le (by omega)]
    exact hd

/-- An input decoration already marked `overlapped` survives the whole run
unchanged: the inner loop skips overlapped predecessors, only a
predecessor (never the current element) is clipped, and a duplicate
removal keeps the equal earlier copy. -/
theorem hoRun_keeps (ef : Nat) (d : Deco) (hov : d.overlapped = true) :
    ∀ (fuel : Nat) (st : HoSt) (out : List Deco),
      hoRun ef fuel st = some out → d ∈ st.decosOf → d ∈ out := by
  intro fuel
  induction fuel with
  | zero =>
    intro st out h _
    rw [hoRun] at h
    exact Option.noConfusion h
  | succ fuel ih =>
    intro st out hrun hmem
    rcases st with ⟨decos, i⟩ | ⟨decos, i, j, cur⟩
    · rw [hoRun] at hrun
      split_ifs at hrun with hi
      · exact ih _ out hrun hmem
      · injection hrun with h
        rw [← h]
        exact hmem
    · rw [hoRun] at hrun
      split_ifs at hrun with hji hdup hovl
      · exact ih _ out hrun (mem_eraseIdx_of_dupJ hji hdup hmem)
      · exact ih _ out hrun hmem
      · rcases hcd : hoDecide ef (decos.getD j defaultDeco) cur
          with _ | (_ | ⟨c, pieces⟩)
        · rw [hcd] at hrun
          exact Option.noConfusion hrun
        · rw [hcd] at hrun
          exact ih _ out hrun hmem
        · rw [hcd] at hrun
          have hne : d ≠ decos.getD j defaultDeco := by
            intro heq
            rw [heq] at hov
            simp only [Bool.not_eq_true] at hovl
            rw [hov] at hovl
            exact Bool.noConfusion hovl
          have hd' : d ∈ decos.set j (hoClip (decos.getD j defaultDeco) c) :=
            mem_set_of_ne_getD hmem hne
          exact ih _ out hrun
            (mem_splice (j + 1)
              (pieces.map (hoPiece (decos.getD j defaultDeco))) hd')
      · exact ih _ out hrun hmem

/-- The concrete C3 input: four decorations, the last already overlapped. -/
def c3In : List Deco :=
  [⟨DecoKind.MutBorrow, ⟨2, 0⟩, ⟨7, 12⟩, "b", false⟩,
   ⟨DecoKind.ImmBorrow, ⟨1, 0⟩, ⟨3, 6⟩, "a", false⟩,
   ⟨DecoKind.MutBorrow, ⟨3, 0⟩, ⟨0, 6⟩, "c", false⟩,
   ⟨DecoKind.ImmBorrow, ⟨1, 0⟩, ⟨4, 5⟩, "a", true⟩]

/-- The run's output on `c3In`. -/
def c3Out : List Deco :=
  [⟨DecoKind.ImmBorrow, ⟨1, 0⟩, ⟨4, 5⟩, "a", true⟩,
   ⟨DecoKind.ImmBorrow, ⟨1, 0⟩, ⟨4, 5⟩, "a", true⟩,
   ⟨DecoKind.MutBorrow, ⟨2, 0⟩, ⟨7, 12⟩, "b", false⟩,
   ⟨DecoKind.MutBorrow, ⟨3, 0⟩, ⟨0, 6⟩, "c", false⟩]

/-- C3 counterexample: on `c3In` the run (1) emits two decorations with
identical kind and identical range (positions 0 and 1 of the output are
fully equal), refuting the no-duplicates conjunct, and (2) the input pair
`ImmBorrow [3,6)` / `MutBorrow [0,6)` intersects with common sub-range
`[3,6)`, yet no output decoration is overlapped with exactly that range,
refuting the shrunk-to-common conjunct. -/
theorem handle_overlapping_c3_counterexample :
    handle_overlapping 20 60 c3In = some c3Out ∧
    (c3Out.getD 0 defaultDeco = c3Out.getD 1 defaultDeco ∧
      (c3Out.getD 0 defaultDeco).kind = (c3Out.getD 1 defaultDeco).kind ∧
      (c3Out.getD 0 defaultDeco).range = (c3Out.getD 1 defaultDeco).range) ∧
    ((⟨DecoKind.ImmBorrow, ⟨1, 0⟩, ⟨3, 6⟩, "a", false⟩ : Deco) ∈ c3In ∧
      (⟨DecoKind.MutBorrow, ⟨3, 0⟩, ⟨0, 6⟩, "c", false⟩ : Deco) ∈ c3In ∧
      common_range ⟨3, 6⟩ ⟨0, 6⟩ = some ⟨3, 6⟩ ∧
      ∀ o ∈ c3Out, ¬ (o.overlapped = true ∧ o.range = ⟨3, 6⟩)) := by
  refine ⟨rfl, by decide, by decide⟩

/-- C3 (amended): of the three claimed conjuncts only the third survives —
a decoration already marked `overlapped` is never split or shrunk again:
every input decoration with `overlapped = true` appears unchanged in the
output of any completed run. -/
theorem handle_overlapping_c3_amended :
    ∀ (ef fuel : Nat) (input out : List Deco) (d : Deco),
      d ∈ input → d.overlapped = true →
      handle_overlapping ef fuel input = some out → d ∈ out := by
  intro ef fuel input out d hmem hov hrun
  exact hoRun_keeps ef d hov fuel (HoSt.Outer (sortDecos input) 1) out hrun
    (sortDecos_mem hmem)

/-- Witness for C3 (amended): an overlapped lifetime decoration next to an
intersecting move passes through a completed run unchanged. -/
theorem handle_overlapping_c3_amended_witness :
    (⟨DecoKind.Lifetime, ⟨1, 0⟩, ⟨2, 6⟩, "a", true⟩ : Deco) ∈
      ([⟨DecoKind.Lifetime, ⟨1, 0⟩, ⟨2, 6⟩, "a", true⟩,
        ⟨DecoKind.Move, ⟨2, 0⟩, ⟨0, 9⟩, "b", false⟩] : List Deco) ∧
    handle_overlapping 10 10
        [⟨DecoKind.Lifetime, ⟨1, 0⟩, ⟨2, 6⟩, "a", true⟩,
         ⟨DecoKind.Move, ⟨2, 0⟩, ⟨0, 9⟩, "b", false⟩] =
      some [⟨DecoKind.Lifetime, ⟨1, 0⟩, ⟨2, 6⟩, "a", true⟩,
        ⟨DecoKind.Move, ⟨2, 0⟩, ⟨0, 9⟩, "b", false⟩] ∧
    (⟨DecoKind.Lifetime, ⟨1, 0⟩, ⟨2, 6⟩, "a", true⟩ : Deco) ∈
      ([⟨DecoKind.Lifetime, ⟨1, 0⟩, ⟨2, 6⟩, "a", true⟩,
        ⟨DecoKind.Move, ⟨2, 0⟩, ⟨0, 9⟩, "b", false⟩] : List Deco) :=
  ⟨by decide, rfl,
   handle_overlapping_c3_amended 10 10
     [⟨DecoKind.Lifetime, ⟨1, 0⟩, ⟨2, 6⟩, "a", true⟩,
      ⟨DecoKind.Move, ⟨2, 0⟩, ⟨0, 9⟩, "b", false⟩]
     [⟨DecoKind.Lifetime, ⟨1, 0⟩, ⟨2, 6⟩, "a", true⟩,
      ⟨DecoKind.Move, ⟨2, 0⟩, ⟨0, 9⟩, "b", false⟩]
     ⟨DecoKind.Lifetime, ⟨1, 0⟩, ⟨2, 6⟩, "a", true⟩ (by decide) rfl rfl⟩
